import Mathlib

/-!
Verification of the KairoCore dynamic-IV codec (`src/utils/crypto_utils.js`).

The two functions `encryptWithDynamicIV` and `decryptWithDynamicIV` are shallowly
embedded here.  Modelling conventions:

* A JavaScript string is a list of UTF-16 code units (`JsStr := List Nat`).
* Bytes are `Nat`s below 256.
* `Date.now()` and `CryptoJS.lib.WordArray.random(16)` are impure inputs of the
  JavaScript code; they are passed as explicit parameters (`now : Int`,
  `iv : List Nat`).
* The AES-128 block permutation supplied by the external `crypto-js` library is
  modelled as an abstract `BlockCipher` parameter; theorems assume only the
  inverse/length/byte-range properties (`CipherGood`) that AES guarantees.  All
  the logic the repository itself contributes — JSON payload construction,
  UTF-8 and Base64 transcoding, PKCS#7 padding, CBC chaining, IV framing and
  the freshness gate — is modelled concretely and executably.
* Thrown JavaScript exceptions are modelled with `Except JsError`; the
  `try/catch` wrappers of the source are explicit in the embedding
  (`decryptWithDynamicIV` maps every error of its body to `none`; the catch
  block of the encrypt path rethrows the error unchanged, so the encrypt
  wrapper is its own body).
* `JSON.stringify` is modelled with the well-formed semantics required since
  ES2019: unpaired surrogate code units are emitted as `\uXXXX` escapes.
  `CryptoJS.enc.Utf8.parse` (built on `encodeURIComponent`) throws a URIError
  on unpaired surrogates; `CryptoJS.enc.Utf8.stringify` (built on
  `decodeURIComponent`) throws a URIError on bytes that are not strict UTF-8.
-/

/-- Errors a JavaScript exception can be classified as in this model.
`uriError` is the raw library URIError of `encodeURIComponent` /
`decodeURIComponent`; `parseError` is the SyntaxError of `JSON.parse`.
`invalidKeyLength` and `encodingFailure` are the error kinds named by the
specification; the source never constructs either, and they are included so
that statements about them can be written down. -/
inductive JsError where
  | uriError : JsError
  | parseError : JsError
  | invalidKeyLength : JsError
  | encodingFailure : JsError
deriving DecidableEq

/-- JavaScript strings are sequences of UTF-16 code units. -/
abbrev JsStr := List Nat

/-! ## Base64 (CryptoJS.enc.Base64) -/

/-- The 64-character Base64 alphabet `A-Z a-z 0-9 + /` as ASCII codes. -/
def b64Alphabet : List Nat :=
  [65, 66, 67, 68, 69, 70, 71, 72, 73, 74, 75, 76, 77, 78, 79, 80, 81, 82,
   83, 84, 85, 86, 87, 88, 89, 90,
   97, 98, 99, 100, 101, 102, 103, 104, 105, 106, 107, 108, 109, 110, 111,
   112, 113, 114, 115, 116, 117, 118, 119, 120, 121, 122,
   48, 49, 50, 51, 52, 53, 54, 55, 56, 57, 43, 47]

/-- Character for a 6-bit group. -/
def b64Char (k : Nat) : Nat := b64Alphabet.getD k 65

/-- Index of a character in the Base64 alphabet.  CryptoJS uses
`String.indexOf`, which yields `-1` for characters outside the alphabet and
then feeds that `-1` through JavaScript shift arithmetic, producing
implementation-defined garbage bytes (it never throws).  No claim's status
depends on the byte values contributed by an out-of-alphabet character, so
such characters are modelled as decoding like index 0. -/
def b64Idx (c : Nat) : Nat :=
  let i := b64Alphabet.indexOf c
  if i < 64 then i else 0

/-- Base64-encode a byte list, three bytes per group (CryptoJS
`Base64.stringify` without the final `=` padding). -/
def b64EncCore : List Nat → List Nat
  | a :: b :: c :: rest =>
      b64Char (a / 4) :: b64Char ((a % 4) * 16 + b / 16) ::
      b64Char ((b % 16) * 4 + c / 64) :: b64Char (c % 64) :: b64EncCore rest
  | [a, b] =>
      [b64Char (a / 4), b64Char ((a % 4) * 16 + b / 16), b64Char ((b % 16) * 4), 61]
  | [a] =>
      [b64Char (a / 4), b64Char ((a % 4) * 16), 61, 61]
  | [] => []

/-- CryptoJS `Base64.stringify`: groups of three bytes to four characters,
with `=` (code 61) padding to a multiple of four characters. -/
def b64Encode (bs : List Nat) : JsStr := b64EncCore bs

/-- Base64 decoding of the character groups after `=` truncation: four
characters to three bytes, a trailing pair or triple to one or two bytes, and
a dangling single character to nothing — exactly the bytes CryptoJS
`Base64.parse` emits. -/
def b64DecCore : List Nat → List Nat
  | c0 :: c1 :: c2 :: c3 :: rest =>
      ((b64Idx c0) * 4 + (b64Idx c1) / 16) ::
      (((b64Idx c1) % 16) * 16 + (b64Idx c2) / 4) ::
      (((b64Idx c2) % 4) * 64 + (b64Idx c3)) :: b64DecCore rest
  | [c0, c1, c2] =>
      [(b64Idx c0) * 4 + (b64Idx c1) / 16,
       ((b64Idx c1) % 16) * 16 + (b64Idx c2) / 4]
  | [c0, c1] =>
      [(b64Idx c0) * 4 + (b64Idx c1) / 16]
  | _ => []

/-- CryptoJS `Base64.parse`: truncate at the first `=` and decode the
remaining characters.  It never throws. -/
def b64Decode (s : JsStr) : List Nat := b64DecCore (s.takeWhile (· ≠ 61))

/-! ## UTF-8 (CryptoJS.enc.Utf8, i.e. encodeURIComponent / decodeURIComponent) -/

/-- High-surrogate test for a UTF-16 code unit. -/
def isHighSurr (u : Nat) : Prop := 0xD800 ≤ u ∧ u < 0xDC00

/-- Low-surrogate test for a UTF-16 code unit. -/
def isLowSurr (u : Nat) : Prop := 0xDC00 ≤ u ∧ u < 0xE000

instance (u : Nat) : Decidable (isHighSurr u) := by unfold isHighSurr; infer_instance

instance (u : Nat) : Decidable (isLowSurr u) := by unfold isLowSurr; infer_instance

/-- UTF-8 encoding of a UTF-16 code-unit sequence, as performed by
`CryptoJS.enc.Utf8.parse` via `encodeURIComponent`: surrogate pairs are
combined into one code point, an unpaired surrogate throws a URIError.  A
`Nat` of 0x10000 or more is not a UTF-16 code unit at all (JavaScript strings
cannot contain one) and is mapped to the error case. -/
def utf8Encode : List Nat → Except JsError (List Nat)
  | [] => .ok []
  | u :: rest =>
    if u < 0x80 then
      (utf8Encode rest).map (u :: ·)
    else if u < 0x800 then
      (utf8Encode rest).map ([0xC0 + u / 64, 0x80 + u % 64] ++ ·)
    else if isHighSurr u then
      match rest with
      | u2 :: rest2 =>
        if isLowSurr u2 then
          let cp := 0x10000 + (u - 0xD800) * 0x400 + (u2 - 0xDC00)
          (utf8Encode rest2).map
            ([0xF0 + cp / 0x40000, 0x80 + cp / 0x1000 % 64,
              0x80 + cp / 64 % 64, 0x80 + cp % 64] ++ ·)
        else .error .uriError
      | [] => .error .uriError
    else if isLowSurr u then
      .error .uriError
    else if u < 0x10000 then
      (utf8Encode rest).map
        ([0xE0 + u / 0x1000, 0x80 + u / 64 % 64, 0x80 + u % 64] ++ ·)
    else
      .error .uriError

/-- Recognize one UTF-8 sequence at the front of a byte stream: the head byte
`b`, the following bytes `rest`.  Returns the emitted UTF-16 code units and
the remaining bytes, or `none` for a malformed sequence.  Continuation bytes
are checked, overlong forms, surrogate code points and code points beyond
U+10FFFF are rejected, and a code point above U+FFFF is emitted as a
surrogate pair. -/
def utf8Split1 (b : Nat) (rest : List Nat) : Option (List Nat × List Nat) :=
  if b < 0x80 then some ([b], rest)
  else if 0xC2 ≤ b ∧ b < 0xE0 then
    match rest with
    | b2 :: rest2 =>
      if 0x80 ≤ b2 ∧ b2 < 0xC0 then some ([(b - 0xC0) * 64 + (b2 - 0x80)], rest2)
      else none
    | [] => none
  else if 0xE0 ≤ b ∧ b < 0xF0 then
    match rest with
    | b2 :: b3 :: rest3 =>
      if (0x80 ≤ b2 ∧ b2 < 0xC0) ∧ (0x80 ≤ b3 ∧ b3 < 0xC0) then
        let cp := (b - 0xE0) * 0x1000 + (b2 - 0x80) * 64 + (b3 - 0x80)
        if cp < 0x800 ∨ (0xD800 ≤ cp ∧ cp < 0xE000) then none
        else some ([cp], rest3)
      else none
    | _ => none
  else if 0xF0 ≤ b ∧ b < 0xF5 then
    match rest with
    | b2 :: b3 :: b4 :: rest4 =>
      if (0x80 ≤ b2 ∧ b2 < 0xC0) ∧ (0x80 ≤ b3 ∧ b3 < 0xC0) ∧
         (0x80 ≤ b4 ∧ b4 < 0xC0) then
        let cp := (b - 0xF0) * 0x40000 + (b2 - 0x80) * 0x1000 + (b3 - 0x80) * 64 + (b4 - 0x80)
        if cp < 0x10000 ∨ 0x110000 ≤ cp then none
        else some ([0xD800 + (cp - 0x10000) / 0x400, 0xDC00 + (cp - 0x10000) % 0x400], rest4)
      else none
    | _ => none
  else none

/-- Driver of the strict UTF-8 decoder.  The fuel only makes the recursion
structural: each step consumes at least one byte, so with the entry fuel
`bs.length` the middle branch is unreachable. -/
def utf8DecodeGo : Nat → List Nat → Except JsError (List Nat)
  | _, [] => .ok []
  | 0, _ :: _ => .error .uriError
  | f + 1, b :: rest =>
    match utf8Split1 b rest with
    | some (us, rem) => (utf8DecodeGo f rem).map (us ++ ·)
    | none => .error .uriError

/-- Strict UTF-8 decoding to UTF-16 code units, as performed by
`CryptoJS.enc.Utf8.stringify` via `decodeURIComponent`: a malformed byte
sequence throws a URIError. -/
def utf8Decode (bs : List Nat) : Except JsError (List Nat) := utf8DecodeGo bs.length bs

/-! ## Decimal numerals (JavaScript number printing and JSON number parsing) -/

/-- Little-endian decimal digit characters of a natural number; the fuel
argument makes the recursion structural and is always called with fuel at
least the number itself. -/
def natDigitsRev : Nat → Nat → List Nat
  | 0, _ => []
  | f + 1, n => if n = 0 then [] else (n % 10 + 48) :: natDigitsRev f (n / 10)

/-- Decimal digit string of a natural number, as JavaScript prints an integral
Number (plain decimal; `Date.now()` values are far below the 1e21 exponent
threshold). -/
def natStr (n : Nat) : JsStr := if n = 0 then [48] else (natDigitsRev n n).reverse

/-- Decimal string of an integer, with a leading `-` for negatives. -/
def intStr (t : Int) : JsStr :=
  if t < 0 then 45 :: natStr (-t).toNat else natStr t.toNat

/-- Digit-character test. -/
def isDigitCh (c : Nat) : Bool := 48 ≤ c ∧ c ≤ 57

/-- Numeric value of a digit-character string, most significant first. -/
def digitsVal (ds : List Nat) : Nat := ds.foldl (fun a c => a * 10 + (c - 48)) 0

/-! ## JSON serialization (JSON.stringify on the payload object) -/

/-- Lowercase hex digit character. -/
def hexCh (d : Nat) : Nat := if d < 10 then d + 48 else d + 87

/-- The escape JSON.stringify produces for one code unit that needs escaping:
`\"`, `\\`, the shorthands `\b \t \n \f \r`, and `\uXXXX` for the remaining
control characters and (well-formed stringify, ES2019) unpaired surrogates. -/
def escCh (u : Nat) : List Nat :=
  if u = 34 then [92, 34]
  else if u = 92 then [92, 92]
  else if u = 8 then [92, 98]
  else if u = 9 then [92, 116]
  else if u = 10 then [92, 110]
  else if u = 12 then [92, 102]
  else if u = 13 then [92, 114]
  else [92, 117, hexCh (u / 0x1000), hexCh (u / 0x100 % 16),
        hexCh (u / 16 % 16), hexCh (u % 16)]

/-- Whether a code unit is emitted raw inside a JSON string literal: anything
that is not a quote, backslash, control character, or part of the surrogate
handling. -/
def escRaw (u : Nat) : Bool := 0x20 ≤ u ∧ u ≠ 34 ∧ u ≠ 92

/-- JSON.stringify escaping of a string value (well-formed mode): a legal
surrogate pair is emitted raw, an unpaired surrogate becomes `\uXXXX`. -/
def escStr : List Nat → List Nat
  | [] => []
  | u :: rest =>
    if isHighSurr u then
      match rest with
      | u2 :: rest2 =>
        if isLowSurr u2 then u :: u2 :: escStr rest2
        else escCh u ++ escStr (u2 :: rest2)
      | [] => escCh u
    else if isLowSurr u then escCh u ++ escStr rest
    else if escRaw u then u :: escStr rest
    else escCh u ++ escStr rest

/-- The serialized payload `JSON.stringify({ t: now, v: value })`:
the literal text of the object with key order `t`, `v`, no whitespace. -/
def payloadStr (t : Int) (v : JsStr) : JsStr :=
  [123, 34, 116, 34, 58] ++ intStr t ++ [44, 34, 118, 34, 58, 34] ++ escStr v ++ [34, 125]

/-! ## JSON values and JSON.parse -/

/-- JSON values, restricted to the forms that can influence the decrypt
result: objects, strings, integral numbers, booleans and null.  Arrays and
fractional or exponent-form numbers are treated as parse failures by the
model; real `JSON.parse` accepts them, but a decrypted blob containing them
flows into exactly the same `data.t` / `data.v` member accesses, which this
model covers through the object case and the `none` result. -/
inductive Json where
  | obj : List (JsStr × Json) → Json
  | str : JsStr → Json
  | num : Int → Json
  | bool : Bool → Json
  | null : Json

/-- JSON whitespace (space, tab, line feed, carriage return). -/
def isWsCh (c : Nat) : Bool := c = 32 ∨ c = 9 ∨ c = 10 ∨ c = 13

/-- Skip JSON whitespace. -/
def skipWs (s : JsStr) : JsStr := s.dropWhile isWsCh

/-- Value of a hex digit character, upper or lower case. -/
def hexVal (c : Nat) : Option Nat :=
  if 48 ≤ c ∧ c ≤ 57 then some (c - 48)
  else if 97 ≤ c ∧ c ≤ 102 then some (c - 87)
  else if 65 ≤ c ∧ c ≤ 70 then some (c - 55)
  else none

/-- Decoded value of a single-character JSON escape. -/
def escDecode (e : Nat) : Option Nat :=
  if e = 34 then some 34
  else if e = 92 then some 92
  else if e = 47 then some 47
  else if e = 98 then some 8
  else if e = 102 then some 12
  else if e = 110 then some 10
  else if e = 114 then some 13
  else if e = 116 then some 9
  else none

/-- Parse the body of a JSON string literal (after the opening quote) up to
and including the closing quote, handling the standard escapes.  Raw control
characters and invalid escapes are SyntaxErrors, as in `JSON.parse`. -/
def parseStrBody : JsStr → Option (JsStr × JsStr)
  | [] => none
  | c :: rest =>
    if c = 34 then some ([], rest)
    else if c = 92 then
      match rest with
      | [] => none
      | e :: r =>
        if e = 117 then
          match r with
          | h1 :: h2 :: h3 :: h4 :: r2 =>
            match hexVal h1, hexVal h2, hexVal h3, hexVal h4 with
            | some d1, some d2, some d3, some d4 =>
              (parseStrBody r2).map
                (fun p => ((d1 * 0x1000 + d2 * 0x100 + d3 * 16 + d4) :: p.1, p.2))
            | _, _, _, _ => none
          | _ => none
        else
          match escDecode e with
          | some u => (parseStrBody r).map (fun p => (u :: p.1, p.2))
          | none => none
    else if c < 32 then none
    else (parseStrBody rest).map (fun p => (c :: p.1, p.2))

/-- Parse a JSON integer: optional minus sign then at least one digit.  The
model rejects a following `.`, `e` or `E` (fractional and exponent numbers are
outside the modelled grammar) and, unlike `JSON.parse`, does not reject a
redundant leading zero — neither difference is observable through any
claim. -/
def parseNumNat (s : JsStr) : Option (Nat × JsStr) :=
  let ds := s.takeWhile isDigitCh
  let rest := s.dropWhile isDigitCh
  if ds = [] then none
  else if rest.head? = some 46 ∨ rest.head? = some 101 ∨ rest.head? = some 69 then none
  else some (digitsVal ds, rest)

/-- Parse a JSON integer: optional minus sign then the digit run. -/
def parseNum (s : JsStr) : Option (Int × JsStr) :=
  if s.head? = some 45 then
    match parseNumNat s.tail with
    | some (n, rest) => some (-(n : Int), rest)
    | none => none
  else
    match parseNumNat s with
    | some (n, rest) => some ((n : Int), rest)
    | none => none

mutual

/-- Parse one JSON value.  The fuel argument only bounds the nesting of the
recursive grammar; `jsonParse` supplies more fuel than any input can consume. -/
def parseVal : Nat → JsStr → Option (Json × JsStr)
  | 0, _ => none
  | f + 1, s =>
    match skipWs s with
    | [] => none
    | c :: rest =>
      if c = 123 then
        match skipWs rest with
        | 125 :: r => some (.obj [], r)
        | r => parseMembers f r []
      else if c = 34 then
        (parseStrBody rest).map (fun p => (.str p.1, p.2))
      else if c = 116 then
        match rest with
        | 114 :: 117 :: 101 :: r => some (.bool true, r)
        | _ => none
      else if c = 102 then
        match rest with
        | 97 :: 108 :: 115 :: 101 :: r => some (.bool false, r)
        | _ => none
      else if c = 110 then
        match rest with
        | 117 :: 108 :: 108 :: r => some (.null, r)
        | _ => none
      else if c = 45 ∨ isDigitCh c then
        (parseNum (c :: rest)).map (fun p => (.num p.1, p.2))
      else none

/-- Parse the members of a JSON object after the opening brace (and not at an
immediate closing brace), accumulating key/value pairs in order. -/
def parseMembers : Nat → JsStr → List (JsStr × Json) → Option (Json × JsStr)
  | 0, _, _ => none
  | f + 1, s, acc =>
    match skipWs s with
    | 34 :: rest =>
      match parseStrBody rest with
      | some (key, r1) =>
        match skipWs r1 with
        | 58 :: r2 =>
          match parseVal f r2 with
          | some (v, r3) =>
            match skipWs r3 with
            | 44 :: r4 => parseMembers f r4 (acc ++ [(key, v)])
            | 125 :: r4 => some (.obj (acc ++ [(key, v)]), r4)
            | _ => none
          | none => none
        | _ => none
      | none => none
    | _ => none

end

/-- JSON.parse: parse one value and require only trailing whitespace.  The
fuel `s.length + 4` exceeds what any input can consume, since every recursive
step first consumes at least one character. -/
def jsonParse (s : JsStr) : Option Json :=
  match parseVal (s.length + 4) s with
  | some (j, rest) => if skipWs rest = [] then some j else none
  | none => none

/-- Property access `data.k` on a parsed JSON value: `none` models the
JavaScript `undefined` of a missing member or of member access on a
non-object primitive.  With duplicate keys `JSON.parse` keeps the last
occurrence, hence the fold. -/
def getField (j : Json) (k : JsStr) : Option Json :=
  match j with
  | .obj fields => fields.foldl (fun acc kv => if kv.1 = k then some kv.2 else acc) none
  | _ => none

/-- JavaScript truthiness of a possibly-undefined JSON value. -/
def jsTruthy (o : Option Json) : Bool :=
  match o with
  | none => false
  | some .null => false
  | some (.bool b) => b
  | some (.num n) => n ≠ 0
  | some (.str s) => s ≠ []
  | some (.obj _) => true

/-- JavaScript numeric coercion of a possibly-undefined JSON value, as used by
`now - data.t`; `none` models NaN.  Strings are coerced from pure decimal
digits only (sign, fraction and whitespace forms of `ToNumber` are outside
the modelled grammar and can only occur in hand-forged blobs). -/
def jsToNum (o : Option Json) : Option Int :=
  match o with
  | none => none
  | some .null => some 0
  | some (.bool b) => some (if b then 1 else 0)
  | some (.num n) => some n
  | some (.str s) => if s ≠ [] ∧ s.all isDigitCh then some (digitsVal s : Int) else none
  | some (.obj _) => none

/-- Collapse a JSON `null` member value to the absent result: the JavaScript
caller receives `null` for an expired blob, `undefined` for a missing `v`
member and `null` for a `v` member holding JSON null, all of which signal
absence of a usable value; the model identifies them as `none`. -/
def denull (o : Option Json) : Option Json :=
  match o with
  | some .null => none
  | x => x

/-! ## AES-CBC with PKCS#7 padding (CryptoJS.AES, mode CBC, pad Pkcs7) -/

/-- The external AES-128 block permutation of crypto-js, abstracted: `enc` and
`dec` take the key bytes and one 16-byte block. -/
structure BlockCipher where
  enc : List Nat → List Nat → List Nat
  dec : List Nat → List Nat → List Nat

/-- The properties of the AES block permutation that the theorems rely on:
on a valid 16-byte block the encryption is a byte-valid 16-byte block and the
decryption inverts it. -/
def CipherGood (C : BlockCipher) (kb : List Nat) : Prop :=
  ∀ b : List Nat, b.length = 16 → (∀ x ∈ b, x < 256) →
    (C.enc kb b).length = 16 ∧ (∀ x ∈ C.enc kb b, x < 256) ∧
    C.dec kb (C.enc kb b) = b

/-- Bytewise XOR of two equal-length blocks (the `_xorBlock` of CBC mode). -/
def xorBytes (a b : List Nat) : List Nat := List.zipWith (· ^^^ ·) a b

/-- Split a byte list into 16-byte chunks; a trailing shorter chunk is kept
as is.  The fuel makes the recursion structural; the entry point supplies the
list length. -/
def chunksAux : Nat → List Nat → List (List Nat)
  | 0, _ => []
  | f + 1, bs => if bs = [] then [] else bs.take 16 :: chunksAux f (bs.drop 16)

/-- The 16-byte chunks of a byte list. -/
def chunks16 (bs : List Nat) : List (List Nat) := chunksAux bs.length bs

/-- PKCS#7 padding (CryptoJS `Pkcs7.pad`): always appends between 1 and 16
bytes, each holding the pad length. -/
def pkcs7Pad (bs : List Nat) : List Nat :=
  let p := 16 - bs.length % 16
  bs ++ List.replicate p p

/-- CBC encryption over 16-byte blocks: each block is XORed with the previous
ciphertext block (initially the IV) before the block cipher is applied. -/
def cbcEncBlocks (C : BlockCipher) (kb : List Nat) : List Nat → List (List Nat) → List (List Nat)
  | _, [] => []
  | prev, b :: bs =>
    let c := C.enc kb (xorBytes prev b)
    c :: cbcEncBlocks C kb c bs

/-- CBC encryption of a padded byte string. -/
def cbcEncrypt (C : BlockCipher) (kb iv bs : List Nat) : List Nat :=
  (cbcEncBlocks C kb iv (chunks16 bs)).flatten

/-- CBC decryption over blocks: each ciphertext block is put through the block
cipher and XORed with the previous ciphertext block (initially the IV). -/
def cbcDecBlocks (C : BlockCipher) (kb : List Nat) : List Nat → List (List Nat) → List (List Nat)
  | _, [] => []
  | prev, c :: cs => xorBytes (C.dec kb c) prev :: cbcDecBlocks C kb c cs

/-- CBC decryption of a byte string whose length is a multiple of 16. -/
def cbcDecrypt (C : BlockCipher) (kb iv bs : List Nat) : List Nat :=
  (cbcDecBlocks C kb iv (chunks16 bs)).flatten

/-! ## The two source functions -/

/-- The function `encryptWithDynamicIV(value, keyStr)` of
`src/utils/crypto_utils.js`.  `now` is the `Date.now()` sample and `iv` the
16 random bytes drawn inside the call.  Following the source: build the
payload string, UTF-8-parse the key (this can throw), UTF-8-parse the payload
inside `CryptoJS.AES.encrypt`, pad with PKCS#7, encrypt in CBC mode, prepend
the IV and Base64-encode.  The catch block of the source logs and rethrows
the same error, so the wrapper equals its body. -/
def encryptWithDynamicIV (C : BlockCipher) (value keyStr : JsStr) (now : Int)
    (iv : List Nat) : Except JsError JsStr :=
  let payload := payloadStr now value
  match utf8Encode keyStr with
  | .error e => .error e
  | .ok kb =>
    match utf8Encode payload with
    | .error e => .error e
    | .ok pb => .ok (b64Encode (iv ++ cbcEncrypt C kb iv (pkcs7Pad pb)))

/-- The decryption pipeline of `decryptWithDynamicIV` up to and including
`JSON.parse`, with every throwing step in `Except`:

* Base64-decode the blob (never throws).
* Split off the first 16 bytes as IV; the remaining `sigBytes - 16` bytes are
  the ciphertext (non-positive when the blob is undersized).
* UTF-8-parse the key (throws on an unpaired surrogate in the key).
* CryptoJS decrypts `ceil(n/16)` blocks where the trailing partial block is
  zero-extended (Base64-parsed words carry zero tail bits), and keeps the
  first `n` bytes of the result; for `n ≤ 0` no block is processed and the
  plaintext is empty.
* `Pkcs7.unpad` reads the last byte (0 when there is none) and drops that
  many bytes without validating them; a negative resulting length reads as
  the empty string.
* An empty plaintext string is falsy: `if (!jsonStr) return null`.
* Otherwise UTF-8-decode (can throw a URIError) and `JSON.parse` (can throw
  a SyntaxError).

The result distinguishes the early `null` return (`ok none`) from a parsed
value (`ok (some data)`). -/
def decryptParsed (C : BlockCipher) (blob keyStr : JsStr) : Except JsError (Option Json) :=
  let raw := b64Decode blob
  let iv := raw.take 16
  let ct := raw.drop 16
  match utf8Encode keyStr with
  | .error e => .error e
  | .ok kb =>
    let n := raw.length - 16
    let plaintext :=
      if raw.length ≤ 16 then []
      else (cbcDecrypt C kb iv (ct ++ List.replicate ((16 - ct.length % 16) % 16) 0)).take n
    let m := plaintext.getLast?.getD 0
    let unpadded := plaintext.take (plaintext.length - m)
    match utf8Decode unpadded with
    | .error e => .error e
    | .ok jsonStr =>
      if jsonStr = [] then .ok none
      else
        match jsonParse jsonStr with
        | some data => .ok (some data)
        | none => .error .parseError

/-- The freshness gate and value extraction of `decryptWithDynamicIV` (step 7
of the source): if `data.t` is truthy and `Math.abs(now - data.t) > 60000`
return null, otherwise return `data.v`.  A non-numeric truthy `t` makes the
subtraction NaN, every comparison with which is false, so the blob counts as
fresh. -/
def freshGate (data : Json) (now : Int) : Option Json :=
  if jsTruthy (getField data [116]) then
    match jsToNum (getField data [116]) with
    | some tn => if (now - tn).natAbs > 60000 then none else denull (getField data [118])
    | none => denull (getField data [118])
  else denull (getField data [118])

/-- The body of the `try` block of `decryptWithDynamicIV(ciphertextBase64,
keyStr)`. -/
def decryptTry (C : BlockCipher) (blob keyStr : JsStr) (now : Int) :
    Except JsError (Option Json) :=
  match decryptParsed C blob keyStr with
  | .error e => .error e
  | .ok none => .ok none
  | .ok (some data) => .ok (freshGate data now)

/-- The function `decryptWithDynamicIV(ciphertextBase64, keyStr)` of
`src/utils/crypto_utils.js`: the catch block maps every thrown error to
`null`. -/
def decryptWithDynamicIV (C : BlockCipher) (blob keyStr : JsStr) (now : Int) : Option Json :=
  match decryptTry C blob keyStr now with
  | .ok r => r
  | .error _ => none

/-- A trivial block cipher used to instantiate the abstract AES parameter in
concrete witnesses: it satisfies `CipherGood` for every key. -/
def identityCipher : BlockCipher where
  enc := fun _ b => b
  dec := fun _ b => b

/-- The identity cipher satisfies the assumed block-cipher properties. -/
theorem identityCipher_good (kb : List Nat) : CipherGood identityCipher kb :=
  fun _ h1 h2 => ⟨h1, h2, rfl⟩

/-! ## Base64 round trip -/

/-- Alphabet characters are never the padding character. -/
theorem b64Char_ne_61 (k : Nat) : b64Char k ≠ 61 := by
  unfold b64Char
  rcases Nat.lt_or_ge k 64 with h | h
  · revert h; revert k; decide
  · rw [List.getD_eq_default]
    · decide
    · simpa [b64Alphabet] using h

/-- Decoding inverts encoding on one 6-bit group. -/
theorem b64Idx_char (k : Nat) (h : k < 64) : b64Idx (b64Char k) = k := by
  revert h; revert k; decide

/-- Decoding the padded-and-truncated character stream recovers the bytes. -/
theorem b64DecCore_encCore (bs : List Nat) (h : ∀ x ∈ bs, x < 256) :
    b64DecCore ((b64EncCore bs).takeWhile (· ≠ 61)) = bs := by
  induction bs using b64EncCore.induct with
  | case1 a b c rest ih =>
    have ha : a < 256 := h a (by simp)
    have hb : b < 256 := h b (by simp)
    have hc : c < 256 := h c (by simp)
    rw [b64EncCore]
    rw [List.takeWhile_cons_of_pos (by simpa using b64Char_ne_61 (a / 4)),
        List.takeWhile_cons_of_pos (by simpa using b64Char_ne_61 ((a % 4) * 16 + b / 16)),
        List.takeWhile_cons_of_pos (by simpa using b64Char_ne_61 ((b % 16) * 4 + c / 64)),
        List.takeWhile_cons_of_pos (by simpa using b64Char_ne_61 (c % 64))]
    rw [b64DecCore]
    rw [b64Idx_char _ (by omega), b64Idx_char _ (by omega),
        b64Idx_char _ (by omega), b64Idx_char _ (by omega)]
    have hrest := ih (fun x hx => h x (by simp [hx]))
    rw [hrest]
    simp only [List.cons.injEq]
    exact ⟨by omega, by omega, by omega, trivial⟩
  | case2 a b =>
    have ha : a < 256 := h a (by simp)
    have hb : b < 256 := h b (by simp)
    rw [b64EncCore]
    rw [List.takeWhile_cons_of_pos (by simpa using b64Char_ne_61 (a / 4)),
        List.takeWhile_cons_of_pos (by simpa using b64Char_ne_61 ((a % 4) * 16 + b / 16)),
        List.takeWhile_cons_of_pos (by simpa using b64Char_ne_61 ((b % 16) * 4))]
    rw [List.takeWhile_cons_of_neg (by simp)]
    rw [b64DecCore]
    rw [b64Idx_char _ (by omega), b64Idx_char _ (by omega), b64Idx_char _ (by omega)]
    simp only [List.cons.injEq]
    exact ⟨by omega, by omega, trivial⟩
  | case3 a =>
    have ha : a < 256 := h a (by simp)
    rw [b64EncCore]
    rw [List.takeWhile_cons_of_pos (by simpa using b64Char_ne_61 (a / 4)),
        List.takeWhile_cons_of_pos (by simpa using b64Char_ne_61 ((a % 4) * 16))]
    rw [List.takeWhile_cons_of_neg (by simp)]
    rw [b64DecCore]
    rw [b64Idx_char _ (by omega), b64Idx_char _ (by omega)]
    simp only [List.cons.injEq]
    exact ⟨by omega, trivial⟩
  | case4 => rfl

/-- The Base64 round trip of the codec: decoding an encoded byte-valid list
recovers it. -/
theorem b64_round_trip (bs : List Nat) (h : ∀ x ∈ bs, x < 256) :
    b64Decode (b64Encode bs) = bs := b64DecCore_encCore bs h

/-- Base64 encoding is injective on byte-valid lists. -/
theorem b64Encode_inj (bs cs : List Nat) (hb : ∀ x ∈ bs, x < 256)
    (hc : ∀ x ∈ cs, x < 256) (h : b64Encode bs = b64Encode cs) : bs = cs := by
  have := b64_round_trip bs hb
  rw [h, b64_round_trip cs hc] at this
  exact this.symm


/-! ## UTF-8 round trip -/

/-- Inversion of a successful `Except.map`. -/
theorem exMap_ok {α β : Type} {f : α → β} {x : Except JsError α} {b : β} :
    x.map f = .ok b ↔ ∃ a, x = .ok a ∧ f a = b := by
  cases x <;> simp [Except.map]

/-- Splitting an ASCII byte. -/
theorem utf8Split1_one (b : Nat) (rest : List Nat) (h : b < 0x80) :
    utf8Split1 b rest = some ([b], rest) := by
  simp [utf8Split1, h]

/-- Splitting the two-byte encoding of `u`. -/
theorem utf8Split1_two (u : Nat) (rest : List Nat) (h1 : 0x80 ≤ u) (h2 : u < 0x800) :
    utf8Split1 (0xC0 + u / 64) ((0x80 + u % 64) :: rest) = some ([u], rest) := by
  have g1 : ¬ (0xC0 + u / 64 < 0x80) := by omega
  have g2 : 0xC2 ≤ 0xC0 + u / 64 := by omega
  have g3 : 0xC0 + u / 64 < 0xE0 := by omega
  have g4 : 0x80 ≤ 0x80 + u % 64 := by omega
  have g5 : 0x80 + u % 64 < 0xC0 := by omega
  have g6 : (0xC0 + u / 64 - 0xC0) * 64 + (0x80 + u % 64 - 0x80) = u := by omega
  simp [utf8Split1, g1, g2, g3, g4, g5, g6]
  omega

/-- Splitting the three-byte encoding of `u`. -/
theorem utf8Split1_three (u : Nat) (rest : List Nat) (h1 : 0x800 ≤ u) (h2 : u < 0x10000)
    (h3 : ¬ (0xD800 ≤ u ∧ u < 0xE000)) :
    utf8Split1 (0xE0 + u / 0x1000) ((0x80 + u / 64 % 64) :: (0x80 + u % 64) :: rest) =
      some ([u], rest) := by
  have g1 : ¬ (0xE0 + u / 0x1000 < 0x80) := by omega
  have g2 : ¬ (0xC2 ≤ 0xE0 + u / 0x1000 ∧ 0xE0 + u / 0x1000 < 0xE0) := by omega
  have g3 : 0xE0 ≤ 0xE0 + u / 0x1000 := by omega
  have g4 : 0xE0 + u / 0x1000 < 0xF0 := by omega
  have g5 : 0x80 ≤ 0x80 + u / 64 % 64 := by omega
  have g6 : 0x80 + u / 64 % 64 < 0xC0 := by omega
  have g7 : 0x80 ≤ 0x80 + u % 64 := by omega
  have g8 : 0x80 + u % 64 < 0xC0 := by omega
  have g9 : (0xE0 + u / 0x1000 - 0xE0) * 0x1000 + (0x80 + u / 64 % 64 - 0x80) * 64 +
      (0x80 + u % 64 - 0x80) = u := by omega
  have g10 : ¬ (u < 0x800 ∨ (0xD800 ≤ u ∧ u < 0xE000)) := by
    rcases Nat.lt_or_ge u 0xD800 with h | h <;> omega
  simp only [utf8Split1, g1, g2, g3, g4, g5, g6, g7, g8, if_true, if_false, ite_true,
    ite_false, and_self, and_true, true_and, if_neg, if_pos, g9]
  simp [g9, g10]

/-- Splitting the four-byte encoding of the surrogate pair `u`, `u2`. -/
theorem utf8Split1_four (u u2 : Nat) (rest : List Nat)
    (hu : 0xD800 ≤ u ∧ u < 0xDC00) (hu2 : 0xDC00 ≤ u2 ∧ u2 < 0xE000) :
    utf8Split1 (0xF0 + (0x10000 + (u - 0xD800) * 0x400 + (u2 - 0xDC00)) / 0x40000)
      ((0x80 + (0x10000 + (u - 0xD800) * 0x400 + (u2 - 0xDC00)) / 0x1000 % 64) ::
       (0x80 + (0x10000 + (u - 0xD800) * 0x400 + (u2 - 0xDC00)) / 64 % 64) ::
       (0x80 + (0x10000 + (u - 0xD800) * 0x400 + (u2 - 0xDC00)) % 64) :: rest) =
      some ([u, u2], rest) := by
  obtain ⟨hu1, hu2'⟩ := hu
  obtain ⟨hv1, hv2⟩ := hu2
  set cp := 0x10000 + (u - 0xD800) * 0x400 + (u2 - 0xDC00) with hcp
  have hcpl : 0x10000 ≤ cp := by omega
  have hcph : cp < 0x110000 := by omega
  have g1 : ¬ (0xF0 + cp / 0x40000 < 0x80) := by omega
  have g2 : ¬ (0xC2 ≤ 0xF0 + cp / 0x40000 ∧ 0xF0 + cp / 0x40000 < 0xE0) := by omega
  have g3 : ¬ (0xE0 ≤ 0xF0 + cp / 0x40000 ∧ 0xF0 + cp / 0x40000 < 0xF0) := by omega
  have g4 : 0xF0 ≤ 0xF0 + cp / 0x40000 := by omega
  have g5 : 0xF0 + cp / 0x40000 < 0xF5 := by omega
  have g6 : 0x80 ≤ 0x80 + cp / 0x1000 % 64 := by omega
  have g7 : 0x80 + cp / 0x1000 % 64 < 0xC0 := by omega
  have g8 : 0x80 ≤ 0x80 + cp / 64 % 64 := by omega
  have g9 : 0x80 + cp / 64 % 64 < 0xC0 := by omega
  have g10 : 0x80 ≤ 0x80 + cp % 64 := by omega
  have g11 : 0x80 + cp % 64 < 0xC0 := by omega
  have g12 : (0xF0 + cp / 0x40000 - 0xF0) * 0x40000 + (0x80 + cp / 0x1000 % 64 - 0x80) * 0x1000 +
      (0x80 + cp / 64 % 64 - 0x80) * 64 + (0x80 + cp % 64 - 0x80) = cp := by omega
  have g13 : ¬ (cp < 0x10000 ∨ 0x110000 ≤ cp) := by omega
  have g14 : 0xD800 + (cp - 0x10000) / 0x400 = u := by omega
  have g15 : 0xDC00 + (cp - 0x10000) % 0x400 = u2 := by omega
  simp only [utf8Split1, g1, g2, g3, g4, g5, g6, g7, g8, g9, g10, g11, if_true, if_false,
    ite_true, ite_false, and_self, and_true, true_and, g12]
  simp [g12, g13, g14, g15]

/-- One-step unfolding of the decode driver. -/
theorem utf8DecodeGo_succ (f : Nat) (b : Nat) (rest : List Nat) :
    utf8DecodeGo (f + 1) (b :: rest) =
      match utf8Split1 b rest with
      | some (us, rem) => (utf8DecodeGo f rem).map (us ++ ·)
      | none => .error .uriError := rfl

/-- One decoding step through a recognized UTF-8 sequence. -/
theorem utf8DecodeGo_step (f : Nat) (b : Nat) (rest us rem res : List Nat)
    (hsplit : utf8Split1 b rest = some (us, rem))
    (hrec : utf8DecodeGo f rem = .ok res) :
    utf8DecodeGo (f + 1) (b :: rest) = .ok (us ++ res) := by
  rw [utf8DecodeGo_succ, hsplit]
  show (utf8DecodeGo f rem).map (us ++ ·) = _
  rw [hrec]
  rfl

/-- Round-trip step for an ASCII unit. -/
theorem utf8rt_step_one (u : Nat) (h : u < 0x80) (rest br : List Nat)
    (hv : ∀ x ∈ br, x < 256) (hd : ∀ f, br.length ≤ f → utf8DecodeGo f br = .ok rest) :
    (∀ x ∈ u :: br, x < 256) ∧
      ∀ f, (u :: br).length ≤ f → utf8DecodeGo f (u :: br) = .ok (u :: rest) := by
  refine ⟨?_, ?_⟩
  · intro x hx
    rcases List.mem_cons.mp hx with rfl | hx
    · omega
    · exact hv x hx
  · intro f hf
    simp only [List.length_cons] at hf
    obtain ⟨g, rfl⟩ : ∃ g, f = g + 1 := ⟨f - 1, by omega⟩
    exact utf8DecodeGo_step g _ _ _ _ _ (utf8Split1_one u br h) (hd g (by omega))

/-- Round-trip step for a two-byte unit. -/
theorem utf8rt_step_two (u : Nat) (h1 : 0x80 ≤ u) (h2 : u < 0x800) (rest br : List Nat)
    (hv : ∀ x ∈ br, x < 256) (hd : ∀ f, br.length ≤ f → utf8DecodeGo f br = .ok rest) :
    (∀ x ∈ [0xC0 + u / 64, 0x80 + u % 64] ++ br, x < 256) ∧
      ∀ f, ([0xC0 + u / 64, 0x80 + u % 64] ++ br).length ≤ f →
        utf8DecodeGo f ([0xC0 + u / 64, 0x80 + u % 64] ++ br) = .ok (u :: rest) := by
  refine ⟨?_, ?_⟩
  · intro x hx
    simp only [List.cons_append, List.nil_append, List.mem_cons] at hx
    rcases hx with h | h | hx
    · omega
    · omega
    · exact hv x hx
  · intro f hf
    simp only [List.cons_append, List.nil_append, List.length_cons] at hf
    obtain ⟨g, rfl⟩ : ∃ g, f = g + 1 := ⟨f - 1, by omega⟩
    exact utf8DecodeGo_step g _ _ _ _ _ (utf8Split1_two u br h1 h2) (hd g (by omega))

/-- Round-trip step for a three-byte unit. -/
theorem utf8rt_step_three (u : Nat) (h1 : 0x800 ≤ u) (h2 : u < 0x10000)
    (h3 : ¬ (0xD800 ≤ u ∧ u < 0xE000)) (rest br : List Nat)
    (hv : ∀ x ∈ br, x < 256) (hd : ∀ f, br.length ≤ f → utf8DecodeGo f br = .ok rest) :
    (∀ x ∈ [0xE0 + u / 0x1000, 0x80 + u / 64 % 64, 0x80 + u % 64] ++ br, x < 256) ∧
      ∀ f, ([0xE0 + u / 0x1000, 0x80 + u / 64 % 64, 0x80 + u % 64] ++ br).length ≤ f →
        utf8DecodeGo f ([0xE0 + u / 0x1000, 0x80 + u / 64 % 64, 0x80 + u % 64] ++ br) =
          .ok (u :: rest) := by
  refine ⟨?_, ?_⟩
  · intro x hx
    simp only [List.cons_append, List.nil_append, List.mem_cons] at hx
    rcases hx with h | h | h | hx
    · omega
    · omega
    · omega
    · exact hv x hx
  · intro f hf
    simp only [List.cons_append, List.nil_append, List.length_cons] at hf
    obtain ⟨g, rfl⟩ : ∃ g, f = g + 1 := ⟨f - 1, by omega⟩
    exact utf8DecodeGo_step g _ _ _ _ _ (utf8Split1_three u br h1 h2 h3) (hd g (by omega))

/-- Round-trip step for a surrogate pair. -/
theorem utf8rt_step_four (u u2 : Nat) (hu : 0xD800 ≤ u ∧ u < 0xDC00)
    (hu2 : 0xDC00 ≤ u2 ∧ u2 < 0xE000) (rest br : List Nat)
    (hv : ∀ x ∈ br, x < 256) (hd : ∀ f, br.length ≤ f → utf8DecodeGo f br = .ok rest) :
    (∀ x ∈ [0xF0 + (0x10000 + (u - 0xD800) * 0x400 + (u2 - 0xDC00)) / 0x40000,
            0x80 + (0x10000 + (u - 0xD800) * 0x400 + (u2 - 0xDC00)) / 0x1000 % 64,
            0x80 + (0x10000 + (u - 0xD800) * 0x400 + (u2 - 0xDC00)) / 64 % 64,
            0x80 + (0x10000 + (u - 0xD800) * 0x400 + (u2 - 0xDC00)) % 64] ++ br, x < 256) ∧
      ∀ f, ([0xF0 + (0x10000 + (u - 0xD800) * 0x400 + (u2 - 0xDC00)) / 0x40000,
            0x80 + (0x10000 + (u - 0xD800) * 0x400 + (u2 - 0xDC00)) / 0x1000 % 64,
            0x80 + (0x10000 + (u - 0xD800) * 0x400 + (u2 - 0xDC00)) / 64 % 64,
            0x80 + (0x10000 + (u - 0xD800) * 0x400 + (u2 - 0xDC00)) % 64] ++ br).length ≤ f →
        utf8DecodeGo f ([0xF0 + (0x10000 + (u - 0xD800) * 0x400 + (u2 - 0xDC00)) / 0x40000,
            0x80 + (0x10000 + (u - 0xD800) * 0x400 + (u2 - 0xDC00)) / 0x1000 % 64,
            0x80 + (0x10000 + (u - 0xD800) * 0x400 + (u2 - 0xDC00)) / 64 % 64,
            0x80 + (0x10000 + (u - 0xD800) * 0x400 + (u2 - 0xDC00)) % 64] ++ br) =
          .ok (u :: u2 :: rest) := by
  refine ⟨?_, ?_⟩
  · intro x hx
    simp only [List.cons_append, List.nil_append, List.mem_cons] at hx
    rcases hx with h | h | h | h | hx
    · omega
    · omega
    · omega
    · omega
    · exact hv x hx
  · intro f hf
    simp only [List.cons_append, List.nil_append, List.length_cons] at hf
    obtain ⟨g, rfl⟩ : ∃ g, f = g + 1 := ⟨f - 1, by omega⟩
    exact utf8DecodeGo_step g _ _ _ _ _ (utf8Split1_four u u2 br hu hu2) (hd g (by omega))

/-- The UTF-8 round trip: a successful encoding consists of bytes below 256
and decodes back to the original code units, with any sufficient fuel. -/
theorem utf8Encode_ok_rt (s : List Nat) :
    ∀ b, utf8Encode s = .ok b →
      (∀ x ∈ b, x < 256) ∧ ∀ f, b.length ≤ f → utf8DecodeGo f b = .ok s := by
  induction s using utf8Encode.induct with
  | case1 =>
    intro b henc
    obtain rfl : ([] : List Nat) = b := by
      rw [utf8Encode.eq_def] at henc
      injection henc
    exact ⟨by simp, fun f _ => by cases f <;> rfl⟩
  | case2 u rest h ih =>
    intro b henc
    rw [utf8Encode.eq_def] at henc
    simp only [if_pos h] at henc
    obtain ⟨br, hbr, rfl⟩ := exMap_ok.mp henc
    obtain ⟨hv, hd⟩ := ih br hbr
    exact utf8rt_step_one u h rest br hv hd
  | case3 u rest h1 h2 ih =>
    intro b henc
    rw [utf8Encode.eq_def] at henc
    simp only [if_neg h1, if_pos h2] at henc
    obtain ⟨br, hbr, rfl⟩ := exMap_ok.mp henc
    obtain ⟨hv, hd⟩ := ih br hbr
    exact utf8rt_step_two u (by omega) h2 rest br hv hd
  | case4 u h1 h2 h3 u2 rest2 h4 ih =>
    intro b henc
    rw [utf8Encode.eq_def] at henc
    simp only [if_neg h1, if_neg h2, if_pos h3, if_pos h4] at henc
    obtain ⟨br, hbr, rfl⟩ := exMap_ok.mp henc
    obtain ⟨hv, hd⟩ := ih br hbr
    exact utf8rt_step_four u u2 h3 h4 rest2 br hv hd
  | case5 u h1 h2 h3 u2 rest2 h4 =>
    intro b henc
    rw [utf8Encode.eq_def] at henc
    simp only [if_neg h1, if_neg h2, if_pos h3, if_neg h4] at henc
    exact (nomatch henc)
  | case6 u h1 h2 h3 =>
    intro b henc
    rw [utf8Encode.eq_def] at henc
    simp only [if_neg h1, if_neg h2, if_pos h3] at henc
    exact (nomatch henc)
  | case7 u rest h1 h2 h3 h4 =>
    intro b henc
    rw [utf8Encode.eq_def] at henc
    simp only [if_neg h1, if_neg h2, if_neg h3, if_pos h4] at henc
    exact (nomatch henc)
  | case8 u rest h1 h2 h3 h4 h5 ih =>
    intro b henc
    have hns : ¬ (0xD800 ≤ u ∧ u < 0xE000) := by
      have g1 : ¬ (0xD800 ≤ u ∧ u < 0xDC00) := h3
      have g2 : ¬ (0xDC00 ≤ u ∧ u < 0xE000) := h4
      omega
    rw [utf8Encode.eq_def] at henc
    simp only [if_neg h1, if_neg h2, if_neg h3, if_neg h4, if_pos h5] at henc
    obtain ⟨br, hbr, rfl⟩ := exMap_ok.mp henc
    obtain ⟨hv, hd⟩ := ih br hbr
    exact utf8rt_step_three u (by omega) h5 hns rest br hv hd
  | case9 u rest h1 h2 h3 h4 h5 =>
    intro b henc
    rw [utf8Encode.eq_def] at henc
    simp only [if_neg h1, if_neg h2, if_neg h3, if_neg h4, if_neg h5] at henc
    exact (nomatch henc)

/-- The UTF-8 round trip at the decoder entry point. -/
theorem utf8_round_trip (s b : List Nat) (henc : utf8Encode s = .ok b) :
    utf8Decode b = .ok s :=
  (utf8Encode_ok_rt s b henc).2 b.length le_rfl

/-- A successful UTF-8 encoding consists of bytes below 256. -/
theorem utf8Encode_bytes_lt (s b : List Nat) (henc : utf8Encode s = .ok b) :
    ∀ x ∈ b, x < 256 :=
  (utf8Encode_ok_rt s b henc).1

/-! ## Decimal numeral round trip -/

/-- Digits produced by `natDigitsRev` are decimal digit characters. -/
theorem natDigitsRev_mem (f : Nat) : ∀ n, ∀ x ∈ natDigitsRev f n, 48 ≤ x ∧ x ≤ 57 := by
  induction f with
  | zero => intro n x hx; simp [natDigitsRev] at hx
  | succ f ih =>
    intro n x hx
    by_cases hn : n = 0
    · simp [natDigitsRev, hn] at hx
    · simp only [natDigitsRev, if_neg hn, List.mem_cons] at hx
      rcases hx with rfl | hx
      · omega
      · exact ih _ x hx

/-- Characters of `natStr` are decimal digit characters. -/
theorem natStr_mem (n : Nat) : ∀ x ∈ natStr n, 48 ≤ x ∧ x ≤ 57 := by
  intro x hx
  unfold natStr at hx
  by_cases hn : n = 0
  · simp [hn] at hx
    omega
  · rw [if_neg hn, List.mem_reverse] at hx
    exact natDigitsRev_mem n n x hx

/-- The numeral is nonempty. -/
theorem natStr_ne_nil (n : Nat) : natStr n ≠ [] := by
  unfold natStr
  by_cases hn : n = 0
  · simp [hn]
  · rw [if_neg hn]
    have : natDigitsRev n n ≠ [] := by
      cases n with
      | zero => omega
      | succ m => simp [natDigitsRev]
    simpa using this

/-- Folding the reversed digit characters evaluates the numeral. -/
theorem natDigitsRev_foldl (f : Nat) : ∀ n acc, n ≤ f →
    List.foldl (fun a c => a * 10 + (c - 48)) acc (natDigitsRev f n).reverse =
      acc * 10 ^ (natDigitsRev f n).length + n := by
  induction f with
  | zero =>
    intro n acc h
    obtain rfl : n = 0 := by omega
    simp [natDigitsRev]
  | succ f ih =>
    intro n acc h
    by_cases hn : n = 0
    · simp [natDigitsRev, hn]
    · rw [natDigitsRev, if_neg hn]
      rw [List.reverse_cons, List.foldl_append]
      rw [ih (n / 10) acc (by omega)]
      simp only [List.foldl_cons, List.foldl_nil, List.length_cons]
      have e : acc * 10 ^ ((natDigitsRev f (n / 10)).length + 1) =
          acc * 10 ^ (natDigitsRev f (n / 10)).length * 10 := by ring
      rw [e]
      generalize acc * 10 ^ (natDigitsRev f (n / 10)).length = M
      omega

/-- Evaluating the digit characters recovers the number. -/
theorem digitsVal_natStr (n : Nat) : digitsVal (natStr n) = n := by
  unfold digitsVal natStr
  by_cases hn : n = 0
  · simp [hn]
  · rw [if_neg hn, natDigitsRev_foldl n n 0 le_rfl]
    simp

/-- Splitting a run of satisfying characters followed by
a non-satisfying remainder. -/
theorem takeWhile_dropWhile_append (p : Nat → Bool) (ds r : List Nat)
    (hall : ∀ x ∈ ds, p x = true) (hr : ∀ y, r.head? = some y → p y = false) :
    (ds ++ r).takeWhile p = ds ∧ (ds ++ r).dropWhile p = r := by
  induction ds with
  | nil =>
    simp only [List.nil_append]
    cases r with
    | nil => simp
    | cons y t =>
      have := hr y rfl
      simp [List.takeWhile, List.dropWhile, this]
  | cons d t ih =>
    have hd : p d = true := hall d (by simp)
    obtain ⟨h1, h2⟩ := ih (fun x hx => hall x (by simp [hx]))
    simp [List.takeWhile_cons, List.dropWhile_cons, hd, h1, h2]

/-- Parsing the printed natural numeral recovers it, when the remainder does
not continue the number. -/
theorem parseNumNat_natStr (n : Nat) (r : JsStr)
    (hr : ∀ y, r.head? = some y → (isDigitCh y = false ∧ y ≠ 46 ∧ y ≠ 101 ∧ y ≠ 69)) :
    parseNumNat (natStr n ++ r) = some (n, r) := by
  have hdig : ∀ x ∈ natStr n, isDigitCh x = true := by
    intro x hx
    have := natStr_mem n x hx
    simp [isDigitCh]
    omega
  obtain ⟨h1, h2⟩ := takeWhile_dropWhile_append isDigitCh (natStr n) r hdig
    (fun y hy => (hr y hy).1)
  unfold parseNumNat
  simp only [h1, h2]
  rw [if_neg (natStr_ne_nil n), if_neg ?_, digitsVal_natStr]
  intro hcon
  rcases hcon with h | h | h <;> (
    cases hhd : r.head? with
    | none => rw [hhd] at h; exact absurd h (by simp)
    | some y =>
      rw [hhd] at h
      have hy := hr y hhd
      simp only [Option.some.injEq] at h
      omega)

/-- Number parsing inverts the decimal printing of an integer, when the
remainder does not continue the number. -/
theorem parseNum_intStr (t : Int) (r : JsStr)
    (hr : ∀ y, r.head? = some y → (isDigitCh y = false ∧ y ≠ 46 ∧ y ≠ 101 ∧ y ≠ 69)) :
    parseNum (intStr t ++ r) = some (t, r) := by
  have hner : ∀ n, (natStr n ++ r).head? ≠ some 45 := by
    intro n hcon
    have hne := natStr_ne_nil n
    cases hn : natStr n with
    | nil => exact hne hn
    | cons d tl =>
      rw [hn] at hcon
      simp only [List.cons_append, List.head?_cons, Option.some.injEq] at hcon
      have := natStr_mem n d (by simp [hn])
      omega
  rcases Int.lt_or_le t 0 with ht | ht
  · have hm : intStr t = 45 :: natStr (-t).toNat := by
      unfold intStr
      rw [if_pos ht]
    rw [hm]
    unfold parseNum
    rw [List.cons_append]
    rw [if_pos (show (45 :: (natStr (-t).toNat ++ r)).head? = some 45 from rfl)]
    rw [List.tail_cons]
    rw [parseNumNat_natStr (-t).toNat r hr]
    show some (-(((-t).toNat : Nat) : Int), r) = some (t, r)
    rw [show -(((-t).toNat : Nat) : Int) = t by omega]
  · have hm : intStr t = natStr t.toNat := by
      unfold intStr
      rw [if_neg (by omega)]
    rw [hm]
    unfold parseNum
    rw [if_neg (hner t.toNat)]
    rw [parseNumNat_natStr t.toNat r hr]
    show some (((t.toNat : Nat) : Int), r) = some (t, r)
    rw [show ((t.toNat : Nat) : Int) = t by omega]

/-! ## Encodability of the serialized payload -/

/-- ASCII text UTF-8-encodes to itself. -/
theorem utf8Encode_ascii (s : List Nat) (h : ∀ x ∈ s, x < 0x80) :
    utf8Encode s = .ok s := by
  induction s with
  | nil => rfl
  | cons u rest ih =>
    rw [utf8Encode.eq_def]
    simp only [if_pos (h u (by simp))]
    rw [ih (fun x hx => h x (by simp [hx]))]
    rfl

/-- A successfully encoded prefix splits off the encoding of a concatenation. -/
theorem utf8Encode_append (s1 : List Nat) : ∀ b1 s2, utf8Encode s1 = .ok b1 →
    utf8Encode (s1 ++ s2) = (utf8Encode s2).map (b1 ++ ·) := by
  induction s1 using utf8Encode.induct with
  | case1 =>
    intro b1 s2 h
    obtain rfl : ([] : List Nat) = b1 := by
      rw [utf8Encode.eq_def] at h
      injection h
    simp only [List.nil_append]
    cases utf8Encode s2 <;> rfl
  | case2 u rest h ih =>
    intro b1 s2 henc
    rw [utf8Encode.eq_def] at henc
    simp only [if_pos h] at henc
    obtain ⟨br, hbr, rfl⟩ := exMap_ok.mp henc
    rw [List.cons_append, utf8Encode.eq_def]
    simp only [if_pos h]
    rw [ih br s2 hbr]
    cases utf8Encode s2 <;> rfl
  | case3 u rest h1 h2 ih =>
    intro b1 s2 henc
    rw [utf8Encode.eq_def] at henc
    simp only [if_neg h1, if_pos h2] at henc
    obtain ⟨br, hbr, rfl⟩ := exMap_ok.mp henc
    rw [List.cons_append, utf8Encode.eq_def]
    simp only [if_neg h1, if_pos h2]
    rw [ih br s2 hbr]
    cases utf8Encode s2 <;> rfl
  | case4 u h1 h2 h3 u2 rest2 h4 ih =>
    intro b1 s2 henc
    rw [utf8Encode.eq_def] at henc
    simp only [if_neg h1, if_neg h2, if_pos h3, if_pos h4] at henc
    obtain ⟨br, hbr, rfl⟩ := exMap_ok.mp henc
    rw [List.cons_append, List.cons_append, utf8Encode.eq_def]
    simp only [if_neg h1, if_neg h2, if_pos h3, if_pos h4]
    rw [ih br s2 hbr]
    cases utf8Encode s2 <;> rfl
  | case5 u h1 h2 h3 u2 rest2 h4 =>
    intro b1 s2 henc
    rw [utf8Encode.eq_def] at henc
    simp only [if_neg h1, if_neg h2, if_pos h3, if_neg h4] at henc
    exact (nomatch henc)
  | case6 u h1 h2 h3 =>
    intro b1 s2 henc
    rw [utf8Encode.eq_def] at henc
    simp only [if_neg h1, if_neg h2, if_pos h3] at henc
    exact (nomatch henc)
  | case7 u rest h1 h2 h3 h4 =>
    intro b1 s2 henc
    rw [utf8Encode.eq_def] at henc
    simp only [if_neg h1, if_neg h2, if_neg h3, if_pos h4] at henc
    exact (nomatch henc)
  | case8 u rest h1 h2 h3 h4 h5 ih =>
    intro b1 s2 henc
    rw [utf8Encode.eq_def] at henc
    simp only [if_neg h1, if_neg h2, if_neg h3, if_neg h4, if_pos h5] at henc
    obtain ⟨br, hbr, rfl⟩ := exMap_ok.mp henc
    rw [List.cons_append, utf8Encode.eq_def]
    simp only [if_neg h1, if_neg h2, if_neg h3, if_neg h4, if_pos h5]
    rw [ih br s2 hbr]
    cases utf8Encode s2 <;> rfl
  | case9 u rest h1 h2 h3 h4 h5 =>
    intro b1 s2 henc
    rw [utf8Encode.eq_def] at henc
    simp only [if_neg h1, if_neg h2, if_neg h3, if_neg h4, if_neg h5] at henc
    exact (nomatch henc)

/-- Hex digit characters are ASCII. -/
theorem hexCh_lt (d : Nat) (h : d < 16) : hexCh d < 0x80 := by
  unfold hexCh
  split <;> omega

/-- An escape sequence consists of ASCII characters. -/
theorem escCh_ascii (u : Nat) (hu : u < 0x10000) : ∀ x ∈ escCh u, x < 0x80 := by
  unfold escCh
  split_ifs <;> intro x hx <;> simp only [List.mem_cons, List.not_mem_nil, or_false] at hx
  · rcases hx with rfl | rfl <;> omega
  · rcases hx with rfl | rfl <;> omega
  · rcases hx with rfl | rfl <;> omega
  · rcases hx with rfl | rfl <;> omega
  · rcases hx with rfl | rfl <;> omega
  · rcases hx with rfl | rfl <;> omega
  · rcases hx with rfl | rfl <;> omega
  · rcases hx with rfl | rfl | rfl | rfl | rfl | rfl
    · omega
    · omega
    · exact hexCh_lt _ (by omega)
    · exact hexCh_lt _ (by omega)
    · exact hexCh_lt _ (by omega)
    · exact hexCh_lt _ (by omega)

/-- The escaped form of a string of UTF-16 code units is UTF-8-encodable. -/
theorem escStr_utf8 (v : List Nat) :
    (∀ x ∈ v, x < 0x10000) → ∃ be, utf8Encode (escStr v) = .ok be := by
  induction v using escStr.induct with
  | case1 => exact fun _ => ⟨[], rfl⟩
  | case2 u h u2 rest2 h2 ih =>
    intro hv
    obtain ⟨be, hbe⟩ := ih (fun x hx => hv x (by simp [hx]))
    have hu : 0xD800 ≤ u ∧ u < 0xDC00 := h
    refine ⟨[0xF0 + (0x10000 + (u - 0xD800) * 0x400 + (u2 - 0xDC00)) / 0x40000,
      0x80 + (0x10000 + (u - 0xD800) * 0x400 + (u2 - 0xDC00)) / 0x1000 % 64,
      0x80 + (0x10000 + (u - 0xD800) * 0x400 + (u2 - 0xDC00)) / 64 % 64,
      0x80 + (0x10000 + (u - 0xD800) * 0x400 + (u2 - 0xDC00)) % 64] ++ be, ?_⟩
    rw [escStr.eq_def]
    simp only [if_pos h, if_pos h2]
    rw [utf8Encode.eq_def]
    simp only [if_neg (show ¬ u < 0x80 by omega), if_neg (show ¬ u < 0x800 by omega),
      if_pos h, if_pos h2]
    rw [hbe]
    rfl
  | case3 u h u2 rest2 h2 ih =>
    intro hv
    obtain ⟨be, hbe⟩ := ih (fun x hx => hv x (by simp at hx ⊢; tauto))
    have hu : 0xD800 ≤ u ∧ u < 0xDC00 := h
    have ha := utf8Encode_ascii (escCh u) (escCh_ascii u (by omega))
    refine ⟨escCh u ++ be, ?_⟩
    rw [escStr.eq_def]
    simp only [if_pos h, if_neg h2]
    rw [utf8Encode_append (escCh u) (escCh u) _ ha, hbe]
    rfl
  | case4 u h =>
    intro hv
    have hu : 0xD800 ≤ u ∧ u < 0xDC00 := h
    have ha := utf8Encode_ascii (escCh u) (escCh_ascii u (by omega))
    refine ⟨escCh u, ?_⟩
    rw [escStr.eq_def]
    simp only [if_pos h]
    exact ha
  | case5 u rest h h2 ih =>
    intro hv
    obtain ⟨be, hbe⟩ := ih (fun x hx => hv x (by simp [hx]))
    have hu : 0xDC00 ≤ u ∧ u < 0xE000 := h2
    have ha := utf8Encode_ascii (escCh u) (escCh_ascii u (by omega))
    refine ⟨escCh u ++ be, ?_⟩
    rw [escStr.eq_def]
    simp only [if_neg h, if_pos h2]
    rw [utf8Encode_append (escCh u) (escCh u) _ ha, hbe]
    rfl
  | case6 u rest h h2 h3 ih =>
    intro hv
    obtain ⟨be, hbe⟩ := ih (fun x hx => hv x (by simp [hx]))
    have hraw : (0x20 ≤ u ∧ u ≠ 34 ∧ u ≠ 92) := by
      have hb := h3
      unfold escRaw at hb
      simpa using hb
    have hns1 : ¬ (0xD800 ≤ u ∧ u < 0xDC00) := h
    have hns2 : ¬ (0xDC00 ≤ u ∧ u < 0xE000) := h2
    have hu : u < 0x10000 := hv u (by simp)
    rw [escStr.eq_def]
    simp only [if_neg h, if_neg h2, if_pos h3]
    rcases Nat.lt_or_ge u 0x80 with hc | hc
    · refine ⟨u :: be, ?_⟩
      rw [utf8Encode.eq_def]
      simp only [if_pos hc]
      rw [hbe]
      rfl
    · rcases Nat.lt_or_ge u 0x800 with hc2 | hc2
      · refine ⟨[0xC0 + u / 64, 0x80 + u % 64] ++ be, ?_⟩
        rw [utf8Encode.eq_def]
        simp only [if_neg (show ¬ u < 0x80 by omega), if_pos hc2]
        rw [hbe]
        rfl
      · refine ⟨[0xE0 + u / 0x1000, 0x80 + u / 64 % 64, 0x80 + u % 64] ++ be, ?_⟩
        rw [utf8Encode.eq_def]
        simp only [if_neg (show ¬ u < 0x80 by omega), if_neg (show ¬ u < 0x800 by omega),
          if_neg h, if_neg h2, if_pos hu]
        rw [hbe]
        rfl
  | case7 u rest h h2 h3 ih =>
    intro hv
    obtain ⟨be, hbe⟩ := ih (fun x hx => hv x (by simp [hx]))
    have hu : u < 0x10000 := hv u (by simp)
    have ha := utf8Encode_ascii (escCh u) (escCh_ascii u hu)
    refine ⟨escCh u ++ be, ?_⟩
    rw [escStr.eq_def]
    simp only [if_neg h, if_neg h2, if_neg h3]
    rw [utf8Encode_append (escCh u) (escCh u) _ ha, hbe]
    rfl

/-- The characters of a printed integer are ASCII. -/
theorem intStr_ascii (t : Int) : ∀ x ∈ intStr t, x < 0x80 := by
  intro x hx
  unfold intStr at hx
  split at hx
  · rcases List.mem_cons.mp hx with rfl | hx
    · omega
    · have := natStr_mem _ x hx
      omega
  · have := natStr_mem _ x hx
    omega

/-- The serialized payload is UTF-8-encodable for any JavaScript string
value. -/
theorem payloadStr_utf8 (t : Int) (v : List Nat) (hv : ∀ x ∈ v, x < 0x10000) :
    ∃ pb, utf8Encode (payloadStr t v) = .ok pb := by
  obtain ⟨be, hbe⟩ := escStr_utf8 v hv
  have h3 : utf8Encode [34, 125] = .ok [34, 125] := utf8Encode_ascii _ (by decide)
  have h4 : utf8Encode (escStr v ++ [34, 125]) = .ok (be ++ [34, 125]) := by
    rw [utf8Encode_append (escStr v) be _ hbe, h3]
    rfl
  have h5 : utf8Encode ([44, 34, 118, 34, 58, 34] ++ (escStr v ++ [34, 125])) =
      .ok ([44, 34, 118, 34, 58, 34] ++ (be ++ [34, 125])) := by
    rw [utf8Encode_append [44, 34, 118, 34, 58, 34] [44, 34, 118, 34, 58, 34] _
      (utf8Encode_ascii _ (by decide)), h4]
    rfl
  have h6 : utf8Encode (intStr t ++ ([44, 34, 118, 34, 58, 34] ++ (escStr v ++ [34, 125]))) =
      .ok (intStr t ++ ([44, 34, 118, 34, 58, 34] ++ (be ++ [34, 125]))) := by
    rw [utf8Encode_append (intStr t) (intStr t) _ (utf8Encode_ascii _ (intStr_ascii t)), h5]
    rfl
  refine ⟨[123, 34, 116, 34, 58] ++ (intStr t ++ ([44, 34, 118, 34, 58, 34] ++ (be ++ [34, 125]))), ?_⟩
  unfold payloadStr
  simp only [List.append_assoc]
  rw [utf8Encode_append [123, 34, 116, 34, 58] [123, 34, 116, 34, 58] _
    (utf8Encode_ascii _ (by decide)), h6]
  rfl

/-! ## JSON string literal round trip -/

/-- Hex digits parse back to their value. -/
theorem hexVal_hexCh (d : Nat) (h : d < 16) : hexVal (hexCh d) = some d := by
  revert h; revert d; decide

/-- A raw character inside a string literal. -/
theorem parseStrBody_raw (c : Nat) (rest : JsStr) (h34 : ¬ c = 34) (h92 : ¬ c = 92)
    (h32 : ¬ c < 32) :
    parseStrBody (c :: rest) = (parseStrBody rest).map (fun p => (c :: p.1, p.2)) := by
  rw [parseStrBody.eq_def]
  simp only [if_neg h34, if_neg h92, if_neg h32]

/-- A `\uXXXX` escape inside a string literal. -/
theorem parseStrBody_hex (u : Nat) (hu : u < 0x10000) (rest : JsStr) :
    parseStrBody (92 :: 117 :: hexCh (u / 0x1000) :: hexCh (u / 0x100 % 16) ::
        hexCh (u / 16 % 16) :: hexCh (u % 16) :: rest) =
      (parseStrBody rest).map (fun p => (u :: p.1, p.2)) := by
  rw [parseStrBody.eq_def]
  simp only [if_neg (show ¬ (92 : Nat) = 34 by decide), if_pos rfl,
    if_pos (show (117 : Nat) = 117 from rfl)]
  rw [hexVal_hexCh _ (by omega), hexVal_hexCh _ (by omega), hexVal_hexCh _ (by omega),
    hexVal_hexCh _ (by omega)]
  have e : u / 0x1000 * 0x1000 + u / 0x100 % 16 * 0x100 + u / 16 % 16 * 16 + u % 16 = u := by
    omega
  simp [e]

/-- An escape sequence parses back to the character it encodes. -/
theorem parseStrBody_escCh (u : Nat) (hu : u < 0x10000) (tail : JsStr) :
    parseStrBody (escCh u ++ tail) = (parseStrBody tail).map (fun p => (u :: p.1, p.2)) := by
  unfold escCh
  split_ifs with e1 e2 e3 e4 e5 e6 e7
  · subst e1
    simp only [List.cons_append, List.nil_append]
    rw [parseStrBody.eq_def]
    simp [escDecode]
  · subst e2
    simp only [List.cons_append, List.nil_append]
    rw [parseStrBody.eq_def]
    simp [escDecode]
  · subst e3
    simp only [List.cons_append, List.nil_append]
    rw [parseStrBody.eq_def]
    simp [escDecode]
  · subst e4
    simp only [List.cons_append, List.nil_append]
    rw [parseStrBody.eq_def]
    simp [escDecode]
  · subst e5
    simp only [List.cons_append, List.nil_append]
    rw [parseStrBody.eq_def]
    simp [escDecode]
  · subst e6
    simp only [List.cons_append, List.nil_append]
    rw [parseStrBody.eq_def]
    simp [escDecode]
  · subst e7
    simp only [List.cons_append, List.nil_append]
    rw [parseStrBody.eq_def]
    simp [escDecode]
  · exact parseStrBody_hex u hu tail

/-- The closing quote. -/
theorem parseStrBody_quote (rest : JsStr) : parseStrBody (34 :: rest) = some ([], rest) := by
  rw [parseStrBody.eq_def]
  simp

/-- The string-literal round trip: parsing the escaped form followed by the
closing quote recovers the code units. -/
theorem parseStrBody_escStr (v : List Nat) :
    (∀ x ∈ v, x < 0x10000) → ∀ r, parseStrBody (escStr v ++ (34 :: r)) = some (v, r) := by
  induction v using escStr.induct with
  | case1 =>
    intro _ r
    rw [escStr.eq_def]
    simp only [List.nil_append]
    exact parseStrBody_quote r
  | case2 u h u2 rest2 h2 ih =>
    intro hv r
    have hu : 0xD800 ≤ u ∧ u < 0xDC00 := h
    have hu2 : 0xDC00 ≤ u2 ∧ u2 < 0xE000 := h2
    rw [escStr.eq_def]
    simp only [if_pos h, if_pos h2, List.cons_append]
    rw [parseStrBody_raw u _ (by omega) (by omega) (by omega)]
    rw [parseStrBody_raw u2 _ (by omega) (by omega) (by omega)]
    rw [ih (fun x hx => hv x (by simp [hx])) r]
    rfl
  | case3 u h u2 rest2 h2 ih =>
    intro hv r
    have hu : 0xD800 ≤ u ∧ u < 0xDC00 := h
    rw [escStr.eq_def]
    simp only [if_pos h, if_neg h2, List.append_assoc]
    rw [parseStrBody_escCh u (by omega)]
    rw [ih (fun x hx => hv x (by simp at hx ⊢; tauto)) r]
    rfl
  | case4 u h =>
    intro hv r
    have hu : 0xD800 ≤ u ∧ u < 0xDC00 := h
    rw [escStr.eq_def]
    simp only [if_pos h]
    rw [parseStrBody_escCh u (by omega)]
    rw [parseStrBody_quote r]
    rfl
  | case5 u rest h h2 ih =>
    intro hv r
    have hu : 0xDC00 ≤ u ∧ u < 0xE000 := h2
    rw [escStr.eq_def]
    simp only [if_neg h, if_pos h2, List.append_assoc]
    rw [parseStrBody_escCh u (by omega)]
    rw [ih (fun x hx => hv x (by simp [hx])) r]
    rfl
  | case6 u rest h h2 h3 ih =>
    intro hv r
    have hraw : (0x20 ≤ u ∧ u ≠ 34 ∧ u ≠ 92) := by
      have hb := h3
      unfold escRaw at hb
      simpa using hb
    rw [escStr.eq_def]
    simp only [if_neg h, if_neg h2, if_pos h3, List.cons_append]
    rw [parseStrBody_raw u _ (by omega) (by omega) (by omega)]
    rw [ih (fun x hx => hv x (by simp [hx])) r]
    rfl
  | case7 u rest h h2 h3 ih =>
    intro hv r
    have hu : u < 0x10000 := hv u (by simp)
    rw [escStr.eq_def]
    simp only [if_neg h, if_neg h2, if_neg h3, List.append_assoc]
    rw [parseStrBody_escCh u hu]
    rw [ih (fun x hx => hv x (by simp [hx])) r]
    rfl

/-! ## Payload JSON round trip -/

/-- The parsed form of the serialized payload object. -/
def payloadJson (t : Int) (v : JsStr) : Json :=
  .obj [([116], .num t), ([118], .str v)]

/-- Whitespace skipping is the identity on a string whose head is not whitespace. -/
theorem skipWs_cons (c : Nat) (rest : JsStr) (h : isWsCh c = false) :
    skipWs (c :: rest) = c :: rest := by
  simp [skipWs, List.dropWhile_cons, h]

/-- The head of a printed integer is a minus sign or a digit. -/
theorem intStr_head (t : Int) :
    ∃ c tl, intStr t = c :: tl ∧ (c = 45 ∨ (48 ≤ c ∧ c ≤ 57)) := by
  unfold intStr
  split
  · exact ⟨45, natStr (-t).toNat, rfl, Or.inl rfl⟩
  · cases hn : natStr t.toNat with
    | nil => exact absurd hn (natStr_ne_nil t.toNat)
    | cons c tl =>
      refine ⟨c, tl, rfl, Or.inr ?_⟩
      exact natStr_mem t.toNat c (by simp [hn])

/-- Parsing a JSON value at a printed integer. -/
theorem parseVal_num (t : Int) (f : Nat) (r : JsStr)
    (hr : ∀ y, r.head? = some y → (isDigitCh y = false ∧ y ≠ 46 ∧ y ≠ 101 ∧ y ≠ 69)) :
    parseVal (f + 1) (intStr t ++ r) = some (.num t, r) := by
  obtain ⟨c, tl, hct, hcd⟩ := intStr_head t
  have hws : isWsCh c = false := by simp [isWsCh]; omega
  have h123 : ¬ c = 123 := by omega
  have h34 : ¬ c = 34 := by omega
  have h116 : ¬ c = 116 := by omega
  have h102 : ¬ c = 102 := by omega
  have h110 : ¬ c = 110 := by omega
  have hnum : (c = 45 ∨ isDigitCh c = true) := by
    rcases hcd with h | h
    · exact Or.inl h
    · refine Or.inr ?_
      simp [isDigitCh]
      omega
  rw [hct, List.cons_append]
  rw [parseVal.eq_def]
  simp only [skipWs_cons c (tl ++ r) hws, if_neg h123, if_neg h34, if_neg h116,
    if_neg h102, if_neg h110, if_pos hnum]
  rw [← List.cons_append, ← hct]
  rw [parseNum_intStr t r hr]
  rfl

/-- Parsing the serialized payload recovers the payload object. -/
theorem parseVal_payload (t : Int) (v : List Nat) (hv : ∀ x ∈ v, x < 0x10000)
    (f : Nat) (r : JsStr) :
    parseVal (f + 4) (payloadStr t v ++ r) = some (payloadJson t v, r) := by
  have hshape : payloadStr t v ++ r =
      123 :: 34 :: 116 :: 34 :: 58 :: (intStr t ++
        (44 :: 34 :: 118 :: 34 :: 58 :: 34 :: (escStr v ++ (34 :: 125 :: r)))) := by
    simp [payloadStr]
  rw [hshape]
  rw [parseVal.eq_def]
  simp only [skipWs_cons 123 _ (by decide), if_pos (show (123 : Nat) = 123 from rfl),
    if_true, skipWs_cons 34 _ (by decide)]
  rw [parseMembers.eq_def]
  simp only [skipWs_cons 34 _ (by decide)]
  rw [parseStrBody_raw 116 _ (by decide) (by decide) (by decide), parseStrBody_quote]
  simp only [if_true, Option.map_some', skipWs_cons 58 _ (by decide)]
  rw [show f + 2 = (f + 1) + 1 from rfl]
  rw [parseVal_num t (f + 1) _ (by intro y hy; injection hy with hy; subst hy; decide)]
  simp only [skipWs_cons 44 _ (by decide)]
  rw [parseMembers.eq_def]
  simp only [skipWs_cons 34 _ (by decide)]
  rw [parseStrBody_raw 118 _ (by decide) (by decide) (by decide), parseStrBody_quote]
  simp only [if_true, Option.map_some', skipWs_cons 58 _ (by decide)]
  rw [parseVal.eq_def]
  simp only [skipWs_cons 34 _ (by decide), if_neg (show ¬ (34 : Nat) = 123 by decide),
    if_pos (show (34 : Nat) = 34 from rfl), if_true]
  rw [parseStrBody_escStr v hv (125 :: r)]
  simp only [Option.map_some', skipWs_cons 125 _ (by decide)]
  rfl

/-- Parsing the serialized payload with JSON.parse yields the payload object. -/
theorem jsonParse_payloadStr (t : Int) (v : List Nat) (hv : ∀ x ∈ v, x < 0x10000) :
    jsonParse (payloadStr t v) = some (payloadJson t v) := by
  unfold jsonParse
  have h := parseVal_payload t v hv (payloadStr t v).length []
  rw [List.append_nil] at h
  rw [h]
  rfl

/-- Member access `data.t` on the payload object. -/
theorem getField_payload_t (t : Int) (v : JsStr) :
    getField (payloadJson t v) [116] = some (.num t) := by
  simp [getField, payloadJson]

/-- Member access `data.v` on the payload object. -/
theorem getField_payload_v (t : Int) (v : JsStr) :
    getField (payloadJson t v) [118] = some (.str v) := by
  simp [getField, payloadJson]

/-- The freshness gate on the payload object: a zero timestamp is falsy and
skips the check; otherwise the absolute difference decides. -/
theorem freshGate_payload (t : Int) (v : JsStr) (now : Int) :
    freshGate (payloadJson t v) now =
      if t ≠ 0 ∧ (now - t).natAbs > 60000 then none else some (.str v) := by
  unfold freshGate
  rw [getField_payload_t, getField_payload_v]
  by_cases ht : t = 0
  · subst ht
    simp [jsTruthy, denull]
  · have htr : jsTruthy (some (.num t)) = true := by simp [jsTruthy, ht]
    rw [if_pos htr]
    simp only [jsToNum]
    by_cases hfresh : (now - t).natAbs > 60000
    · rw [if_pos hfresh, if_pos ⟨ht, hfresh⟩]
    · rw [if_neg hfresh, if_neg (by tauto)]
      rfl

/-! ## CBC and PKCS#7 round trip -/

/-- Rechunking a concatenation of 16-byte blocks recovers the blocks. -/
theorem chunksAux_flatten (bs : List (List Nat)) :
    ∀ f, bs.length ≤ f → (∀ b ∈ bs, b.length = 16) →
      chunksAux f bs.flatten = bs := by
  induction bs with
  | nil =>
    intro f _ _
    cases f <;> simp [chunksAux]
  | cons b tl ih =>
    intro f hf hall
    have hb : b.length = 16 := hall b (by simp)
    have h1f : 1 ≤ f := le_trans (by simp) hf
    obtain ⟨g, rfl⟩ : ∃ g, f = g + 1 := ⟨f - 1, by omega⟩
    rw [List.flatten_cons, chunksAux]
    rw [if_neg (show ¬ (b ++ tl.flatten = []) from by
      intro hcon
      have h0 := List.append_eq_nil.mp hcon
      rw [h0.1] at hb
      simp at hb)]
    rw [List.take_left' hb, List.drop_left' hb]
    rw [ih g (by simp only [List.length_cons] at hf; omega) (fun x hx => hall x (by simp [hx]))]

/-- Rechunking at the entry point. -/
theorem chunks16_flatten (bs : List (List Nat)) (hall : ∀ b ∈ bs, b.length = 16) :
    chunks16 bs.flatten = bs := by
  have hlen : bs.flatten.length = 16 * bs.length := by
    induction bs with
    | nil => simp
    | cons b tl ih =>
      simp only [List.flatten_cons, List.length_append, List.mem_cons] at *
      rw [hall b (Or.inl rfl), ih (fun x hx => hall x (Or.inr hx))]
      simp only [List.length_cons]
      ring
  show chunksAux bs.flatten.length bs.flatten = bs
  exact chunksAux_flatten bs _ (by omega) hall

/-- Chunking a block-aligned byte string: the chunks are 16-byte sublists of
the input and concatenate back to it. -/
theorem chunks16_self (data : List Nat) (hd : data.length % 16 = 0) :
    (∀ b ∈ chunks16 data, b.length = 16 ∧ ∀ x ∈ b, x ∈ data) ∧
      (chunks16 data).flatten = data := by
  suffices h : ∀ f d, d.length ≤ f → d.length % 16 = 0 →
      (∀ b ∈ chunksAux f d, b.length = 16 ∧ ∀ x ∈ b, x ∈ d) ∧
        (chunksAux f d).flatten = d by
    exact h data.length data le_rfl hd
  intro f
  induction f with
  | zero =>
    intro d hf _
    obtain rfl : d = [] := by
      cases d with
      | nil => rfl
      | cons a t => simp at hf
    simp [chunksAux]
  | succ g ih =>
    intro d hf hd16
    by_cases hnil : d = []
    · subst hnil
      simp [chunksAux]
    · have hlen : 16 ≤ d.length := by
        have : d.length ≠ 0 := by simpa using hnil
        omega
      rw [chunksAux, if_neg hnil]
      have htake : (d.take 16).length = 16 := by
        rw [List.length_take]
        omega
      have hdrop : (d.drop 16).length = d.length - 16 := List.length_drop 16 d
      obtain ⟨hrec1, hrec2⟩ := ih (d.drop 16) (by omega) (by omega)
      refine ⟨?_, ?_⟩
      · intro b hb
        rcases List.mem_cons.mp hb with rfl | hb
        · exact ⟨htake, fun x hx => List.take_subset 16 d hx⟩
        · obtain ⟨hb1, hb2⟩ := hrec1 b hb
          exact ⟨hb1, fun x hx => List.drop_subset 16 d (hb2 x hx)⟩
      · rw [List.flatten_cons, hrec2, List.take_append_drop]

/-- The XOR of two 16-byte blocks has 16 bytes. -/
theorem xorBytes_len (a b : List Nat) (ha : a.length = 16) (hb : b.length = 16) :
    (xorBytes a b).length = 16 := by
  rw [xorBytes, List.length_zipWith]
  omega

/-- The XOR of byte-valid lists is byte-valid. -/
theorem xorBytes_valid : ∀ a b : List Nat, (∀ x ∈ a, x < 256) → (∀ x ∈ b, x < 256) →
    ∀ x ∈ xorBytes a b, x < 256 := by
  intro a
  induction a with
  | nil => intro b _ _ x hx; simp [xorBytes] at hx
  | cons c t ih =>
    intro b hav hbv x hx
    cases b with
    | nil => simp [xorBytes] at hx
    | cons d s =>
      simp only [xorBytes, List.zipWith_cons_cons, List.mem_cons] at hx
      rcases hx with rfl | hx
      · have h1 : c < 256 := hav c (by simp)
        have h2 : d < 256 := hbv d (by simp)
        calc c ^^^ d < 2 ^ 8 := Nat.xor_lt_two_pow h1 h2
        _ = 256 := by norm_num
      · exact ih s (fun y hy => hav y (by simp [hy])) (fun y hy => hbv y (by simp [hy])) x hx

/-- XOR cancellation on equal-length blocks. -/
theorem xorBytes_cancel (a : List Nat) : ∀ b, a.length = b.length →
    xorBytes (xorBytes a b) a = b := by
  induction a with
  | nil =>
    intro b hb
    obtain rfl : b = [] := by
      cases b with
      | nil => rfl
      | cons y t => simp at hb
    rfl
  | cons x t ih =>
    intro b hb
    cases b with
    | nil => simp at hb
    | cons y s =>
      simp only [xorBytes, List.zipWith_cons_cons, List.cons.injEq]
      refine ⟨?_, ih s (by simpa using hb)⟩
      rw [Nat.xor_comm x y]
      rw [Nat.xor_assoc]
      rw [Nat.xor_self, Nat.xor_zero]

/-- Total length of a list of 16-byte blocks. -/
theorem flatten_len16 (bs : List (List Nat)) (hall : ∀ b ∈ bs, b.length = 16) :
    bs.flatten.length = 16 * bs.length := by
  induction bs with
  | nil => simp
  | cons b tl ih =>
    simp only [List.flatten_cons, List.length_append, List.length_cons]
    rw [hall b (by simp), ih (fun x hx => hall x (by simp [hx]))]
    ring

/-- CBC encryption over blocks: the ciphertext blocks are valid 16-byte
blocks, block-wise decryption inverts the encryption, and the block count is
preserved. -/
theorem cbcEncBlocks_props (C : BlockCipher) (kb : List Nat) (hC : CipherGood C kb) :
    ∀ bs prev, (∀ b ∈ bs, b.length = 16 ∧ ∀ x ∈ b, x < 256) →
      prev.length = 16 → (∀ x ∈ prev, x < 256) →
      (∀ c ∈ cbcEncBlocks C kb prev bs, c.length = 16 ∧ ∀ x ∈ c, x < 256) ∧
        cbcDecBlocks C kb prev (cbcEncBlocks C kb prev bs) = bs ∧
        (cbcEncBlocks C kb prev bs).length = bs.length := by
  intro bs
  induction bs with
  | nil =>
    intro prev _ _ _
    exact ⟨by simp [cbcEncBlocks], by simp [cbcEncBlocks, cbcDecBlocks], by simp [cbcEncBlocks]⟩
  | cons b tl ih =>
    intro prev hall hp16 hpv
    obtain ⟨hb16, hbv⟩ := hall b (by simp)
    have hx16 : (xorBytes prev b).length = 16 := xorBytes_len prev b hp16 hb16
    have hxv : ∀ x ∈ xorBytes prev b, x < 256 := xorBytes_valid prev b hpv hbv
    obtain ⟨hc16, hcv, hcd⟩ := hC (xorBytes prev b) hx16 hxv
    obtain ⟨ih1, ih2, ih3⟩ :=
      ih (C.enc kb (xorBytes prev b)) (fun x hx => hall x (by simp [hx])) hc16 hcv
    refine ⟨?_, ?_, ?_⟩
    · intro c hc
      rw [cbcEncBlocks] at hc
      rcases List.mem_cons.mp hc with rfl | hc
      · exact ⟨hc16, hcv⟩
      · exact ih1 c hc
    · rw [cbcEncBlocks, cbcDecBlocks, hcd, ih2]
      rw [xorBytes_cancel prev b (by omega)]
    · rw [cbcEncBlocks]
      simp only [List.length_cons, ih3]

/-- CBC with a good cipher: length preservation, byte validity, and the
decrypt round trip, at the byte level. -/
theorem cbcEncrypt_props (C : BlockCipher) (kb : List Nat) (hC : CipherGood C kb)
    (iv : List Nat) (hiv : iv.length = 16) (hivv : ∀ x ∈ iv, x < 256)
    (data : List Nat) (hd : data.length % 16 = 0) (hdv : ∀ x ∈ data, x < 256) :
    (cbcEncrypt C kb iv data).length = data.length ∧
      (∀ x ∈ cbcEncrypt C kb iv data, x < 256) ∧
      cbcDecrypt C kb iv (cbcEncrypt C kb iv data) = data := by
  obtain ⟨hblocks, hflat⟩ := chunks16_self data hd
  have hall : ∀ b ∈ chunks16 data, b.length = 16 ∧ ∀ x ∈ b, x < 256 :=
    fun b hb => ⟨(hblocks b hb).1, fun x hx => hdv x ((hblocks b hb).2 x hx)⟩
  obtain ⟨he1, he2, he3⟩ := cbcEncBlocks_props C kb hC (chunks16 data) iv hall hiv hivv
  have hlen : (cbcEncrypt C kb iv data).length = data.length := by
    rw [cbcEncrypt, flatten_len16 _ (fun c hc => (he1 c hc).1), he3]
    conv_rhs => rw [← hflat]
    rw [flatten_len16 _ (fun b hb => (hblocks b hb).1)]
  refine ⟨hlen, ?_, ?_⟩
  · intro x hx
    rw [cbcEncrypt, List.mem_flatten] at hx
    obtain ⟨c, hc, hxc⟩ := hx
    exact (he1 c hc).2 x hxc
  · rw [cbcEncrypt, cbcDecrypt]
    rw [chunks16_flatten _ (fun c hc => (he1 c hc).1)]
    rw [he2, hflat]

/-! ## The decrypt-of-encrypt pipeline -/

/-- Decrypting a blob produced by `encryptWithDynamicIV` with the same key
reaches the freshness gate with exactly the embedded payload object. -/
theorem decryptParsed_encrypt (C : BlockCipher) (value keyStr kb : JsStr)
    (hk : utf8Encode keyStr = .ok kb) (hC : CipherGood C kb)
    (hv : ∀ x ∈ value, x < 0x10000)
    (iv : List Nat) (hiv16 : iv.length = 16) (hivb : ∀ x ∈ iv, x < 256)
    (tEnc : Int) (blob : JsStr)
    (henc : encryptWithDynamicIV C value keyStr tEnc iv = .ok blob) :
    decryptParsed C blob keyStr = .ok (some (payloadJson tEnc value)) := by
  obtain ⟨pb, hpb⟩ := payloadStr_utf8 tEnc value hv
  have hblob : blob = b64Encode (iv ++ cbcEncrypt C kb iv (pkcs7Pad pb)) := by
    unfold encryptWithDynamicIV at henc
    simp only [hk, hpb, Except.ok.injEq] at henc
    exact henc.symm
  have hpbv := utf8Encode_bytes_lt _ _ hpb
  have hpmod : pb.length % 16 < 16 := Nat.mod_lt _ (by norm_num)
  have hpadlen : (pkcs7Pad pb).length = pb.length + (16 - pb.length % 16) := by
    simp [pkcs7Pad]
  have hpad16 : (pkcs7Pad pb).length % 16 = 0 := by
    rw [hpadlen]
    omega
  have hpadv : ∀ x ∈ pkcs7Pad pb, x < 256 := by
    intro x hx
    rw [pkcs7Pad, List.mem_append] at hx
    rcases hx with hx | hx
    · exact hpbv x hx
    · have := List.eq_of_mem_replicate hx
      omega
  obtain ⟨hclen, hcv, hcd⟩ := cbcEncrypt_props C kb hC iv hiv16 hivb (pkcs7Pad pb) hpad16 hpadv
  set ct := cbcEncrypt C kb iv (pkcs7Pad pb) with hct
  have hraw : b64Decode blob = iv ++ ct := by
    rw [hblob]
    exact b64_round_trip _ (by
      intro x hx
      rw [List.mem_append] at hx
      rcases hx with hx | hx
      · exact hivb x hx
      · exact hcv x hx)
  have hctmod : ct.length % 16 = 0 := by rw [hclen]; exact hpad16
  have hct16 : 16 ≤ ct.length := by
    rw [hclen, hpadlen]
    omega
  unfold decryptParsed
  rw [hraw, hk]
  have h1 : (iv ++ ct).take 16 = iv := List.take_left' hiv16
  have h2 : (iv ++ ct).drop 16 = ct := List.drop_left' hiv16
  have h3 : ¬ ((iv ++ ct).length ≤ 16) := by
    rw [List.length_append]
    omega
  have h4 : (iv ++ ct).length - 16 = ct.length := by
    rw [List.length_append]
    omega
  have h5 : (16 - ct.length % 16) % 16 = 0 := by omega
  simp only [h1, h2, if_neg h3, h4, h5, List.replicate, List.append_nil]
  rw [hcd]
  rw [show ct.length = (pkcs7Pad pb).length from hclen]
  rw [List.take_length]
  set p := 16 - pb.length % 16 with hpdef
  have hplast : (pkcs7Pad pb).getLast? = some p := by
    rw [pkcs7Pad]
    rw [show (16 - pb.length % 16) = (p - 1) + 1 by omega]
    rw [List.replicate_succ']
    rw [← List.append_assoc]
    rw [List.getLast?_concat]
    rw [show (p - 1) + 1 = p by omega]
  rw [hplast]
  simp only [Option.getD_some]
  have hunpad : (pkcs7Pad pb).take ((pkcs7Pad pb).length - p) = pb := by
    rw [hpadlen]
    rw [show pb.length + (16 - pb.length % 16) - p = pb.length by omega]
    rw [pkcs7Pad]
    exact List.take_left' rfl
  rw [hunpad]
  rw [utf8_round_trip _ _ hpb]
  simp only [if_neg (show ¬ (payloadStr tEnc value = []) from by simp [payloadStr]),
    jsonParse_payloadStr tEnc value hv]

/-- Decrypting a blob produced by `encryptWithDynamicIV` with the same key:
the result is the embedded value unless the embedded timestamp is truthy and
outside the 60,000 ms window. -/
theorem decrypt_encrypt (C : BlockCipher) (value keyStr kb : JsStr)
    (hk : utf8Encode keyStr = .ok kb) (hC : CipherGood C kb)
    (hv : ∀ x ∈ value, x < 0x10000)
    (iv : List Nat) (hiv16 : iv.length = 16) (hivb : ∀ x ∈ iv, x < 256)
    (tEnc : Int) (blob : JsStr)
    (henc : encryptWithDynamicIV C value keyStr tEnc iv = .ok blob) (tDec : Int) :
    decryptWithDynamicIV C blob keyStr tDec =
      if tEnc ≠ 0 ∧ (tDec - tEnc).natAbs > 60000 then none else some (.str value) := by
  unfold decryptWithDynamicIV decryptTry
  rw [decryptParsed_encrypt C value keyStr kb hk hC hv iv hiv16 hivb tEnc blob henc]
  simp only [freshGate_payload]

/-- The shape of a successful encryption: the blob is the Base64 encoding of
the IV followed by the CBC ciphertext of the padded payload, and that
ciphertext is a nonempty block-aligned byte string. -/
theorem encrypt_shape (C : BlockCipher) (value keyStr kb : JsStr)
    (hk : utf8Encode keyStr = .ok kb) (hC : CipherGood C kb)
    (hv : ∀ x ∈ value, x < 0x10000)
    (iv : List Nat) (hiv16 : iv.length = 16) (hivb : ∀ x ∈ iv, x < 256)
    (tEnc : Int) :
    ∃ pb ct, utf8Encode (payloadStr tEnc value) = .ok pb ∧
      ct = cbcEncrypt C kb iv (pkcs7Pad pb) ∧
      encryptWithDynamicIV C value keyStr tEnc iv = .ok (b64Encode (iv ++ ct)) ∧
      ct.length % 16 = 0 ∧ 16 ≤ ct.length ∧ (∀ x ∈ ct, x < 256) := by
  obtain ⟨pb, hpb⟩ := payloadStr_utf8 tEnc value hv
  have hpbv := utf8Encode_bytes_lt _ _ hpb
  have hpmod : pb.length % 16 < 16 := Nat.mod_lt _ (by norm_num)
  have hpadlen : (pkcs7Pad pb).length = pb.length + (16 - pb.length % 16) := by
    simp [pkcs7Pad]
  have hpad16 : (pkcs7Pad pb).length % 16 = 0 := by
    rw [hpadlen]
    omega
  have hpadv : ∀ x ∈ pkcs7Pad pb, x < 256 := by
    intro x hx
    rw [pkcs7Pad, List.mem_append] at hx
    rcases hx with hx | hx
    · exact hpbv x hx
    · have := List.eq_of_mem_replicate hx
      omega
  obtain ⟨hclen, hcv, _⟩ := cbcEncrypt_props C kb hC iv hiv16 hivb (pkcs7Pad pb) hpad16 hpadv
  refine ⟨pb, cbcEncrypt C kb iv (pkcs7Pad pb), hpb, rfl, ?_, ?_, ?_, hcv⟩
  · unfold encryptWithDynamicIV
    simp only [hk, hpb]
  · rw [hclen]
    exact hpad16
  · rw [hclen, hpadlen]
    omega

/-! ## Concrete inputs for witnesses -/

/-- The 16-character key `0123456789abcdef` as UTF-16 code units. -/
def kcKey16 : JsStr := [48, 49, 50, 51, 52, 53, 54, 55, 56, 57, 97, 98, 99, 100, 101, 102]

/-- The 15-character key `0123456789abcde`. -/
def kcKey15 : JsStr := [48, 49, 50, 51, 52, 53, 54, 55, 56, 57, 97, 98, 99, 100, 101]

/-- The value `s3cr3t`. -/
def kcVal : JsStr := [115, 51, 99, 114, 51, 116]

/-- A sample IV. -/
def kcIv1 : List Nat := [0, 1, 2, 3, 4, 5, 6, 7, 8, 9, 10, 11, 12, 13, 14, 15]

/-- A second, different sample IV. -/
def kcIv2 : List Nat := [7, 7, 7, 7, 7, 7, 7, 7, 7, 7, 7, 7, 7, 7, 7, 7]

/-- The blob encrypted at time 1000 with `kcIv1`. -/
def kcBlob1 : JsStr :=
  (encryptWithDynamicIV identityCipher kcVal kcKey16 1000 kcIv1).toOption.getD []

/-- The blob encrypted at time 2000 with `kcIv2`. -/
def kcBlob2 : JsStr :=
  (encryptWithDynamicIV identityCipher kcVal kcKey16 2000 kcIv2).toOption.getD []

theorem kcBlob1_spec : encryptWithDynamicIV identityCipher kcVal kcKey16 1000 kcIv1 =
    .ok kcBlob1 := rfl

theorem kcBlob2_spec : encryptWithDynamicIV identityCipher kcVal kcKey16 2000 kcIv2 =
    .ok kcBlob2 := rfl

/-! ## The claims -/

/-- Claim C1: for every string value `v` and every key string whose UTF-8
encoding is exactly 16 bytes, decrypting the blob produced by
`encryptWithDynamicIV(v, k)` with the same key within the 60,000 ms freshness
window returns `v`. -/
theorem kc_c1_round_trip (C : BlockCipher) (value keyStr kb : JsStr)
    (hk : utf8Encode keyStr = .ok kb) (hk16 : kb.length = 16)
    (hC : CipherGood C kb) (hv : ∀ x ∈ value, x < 0x10000)
    (iv : List Nat) (hiv16 : iv.length = 16) (hivb : ∀ x ∈ iv, x < 256)
    (tEnc tDec : Int) (blob : JsStr)
    (henc : encryptWithDynamicIV C value keyStr tEnc iv = .ok blob)
    (hfresh : (tDec - tEnc).natAbs ≤ 60000) :
    decryptWithDynamicIV C blob keyStr tDec = some (.str value) := by
  rw [decrypt_encrypt C value keyStr kb hk hC hv iv hiv16 hivb tEnc blob henc tDec]
  rw [if_neg (by omega)]

/-- Witness for C1 at the concrete scenario: `s3cr3t` encrypted with
`0123456789abcdef` decrypts immediately to `s3cr3t`. -/
theorem kc_c1_round_trip_witness :
    decryptWithDynamicIV identityCipher kcBlob1 kcKey16 1000 = some (.str kcVal) :=
  kc_c1_round_trip identityCipher kcVal kcKey16 kcKey16 rfl (by decide)
    (identityCipher_good kcKey16) (by decide) kcIv1 (by decide) (by decide)
    1000 1000 kcBlob1 kcBlob1_spec (by decide)

/-- Claim C2: the decrypt operation never raises an error to its caller —
every error thrown inside the try block is mapped to the null result by the
catch-all. -/
theorem kc_c2_decrypt_never_throws (C : BlockCipher) (blob keyStr : JsStr) (now : Int)
    (e : JsError) (h : decryptTry C blob keyStr now = .error e) :
    decryptWithDynamicIV C blob keyStr now = none := by
  unfold decryptWithDynamicIV
  rw [h]

/-- Witness for C2: a blob whose padded plaintext is not valid UTF-8 makes
the try block throw a URIError, and the caller sees null. -/
theorem kc_c2_decrypt_never_throws_witness :
    decryptWithDynamicIV identityCipher
      (b64Encode (List.replicate 16 0 ++ (255 :: List.replicate 14 0 ++ [1]))) kcKey16 0 =
      none :=
  kc_c2_decrypt_never_throws identityCipher
    (b64Encode (List.replicate 16 0 ++ (255 :: List.replicate 14 0 ++ [1]))) kcKey16 0
    .uriError rfl

/-- Counterexample to C3 as stated: encryption with the 15-character key
`0123456789abcde` does not raise `InvalidKeyLength`; it produces a blob. -/
theorem kc_c3_counterexample :
    ∃ b, encryptWithDynamicIV identityCipher [120] kcKey15 5 kcIv1 = .ok b ∧
      encryptWithDynamicIV identityCipher [120] kcKey15 5 kcIv1 ≠
        .error .invalidKeyLength := by
  have he : encryptWithDynamicIV identityCipher [120] kcKey15 5 kcIv1 =
      .ok ((encryptWithDynamicIV identityCipher [120] kcKey15 5 kcIv1).toOption.getD []) := rfl
  refine ⟨_, he, ?_⟩
  rw [he]
  exact fun hcon => nomatch hcon

/-- Claim C3 amended: `encryptWithDynamicIV` performs no key-length check at
all — for every key whose UTF-8 parse succeeds, of any length, encryption
succeeds and produces a blob (the underlying cipher library is simply handed
the wrong-sized key). -/
theorem kc_c3_amended (C : BlockCipher) (value keyStr kb : JsStr)
    (hk : utf8Encode keyStr = .ok kb) (hv : ∀ x ∈ value, x < 0x10000)
    (iv : List Nat) (t : Int) :
    ∃ b, encryptWithDynamicIV C value keyStr t iv = .ok b := by
  obtain ⟨pb, hpb⟩ := payloadStr_utf8 t value hv
  refine ⟨b64Encode (iv ++ cbcEncrypt C kb iv (pkcs7Pad pb)), ?_⟩
  unfold encryptWithDynamicIV
  simp only [hk, hpb]

/-- Witness for the amended C3 at the 15-character key. -/
theorem kc_c3_amended_witness :
    ∃ b, encryptWithDynamicIV identityCipher [121] kcKey15 7 kcIv1 = .ok b :=
  kc_c3_amended identityCipher [121] kcKey15 kcKey15 rfl (by decide) kcIv1 7

/-- Claim C4: for a validly formed blob decrypted with the correct key, an
absolute clock difference above 60,000 ms yields null and one of at most
60,000 ms (in particular 59,999 ms) yields the embedded value; the edge at
exactly 60,000 ms is fixed on the accepting side. -/
theorem kc_c4_expiry (C : BlockCipher) (value keyStr kb : JsStr)
    (hk : utf8Encode keyStr = .ok kb) (hC : CipherGood C kb)
    (hv : ∀ x ∈ value, x < 0x10000)
    (iv : List Nat) (hiv16 : iv.length = 16) (hivb : ∀ x ∈ iv, x < 256)
    (tEnc : Int) (htpos : 0 < tEnc) (blob : JsStr)
    (henc : encryptWithDynamicIV C value keyStr tEnc iv = .ok blob) (tDec : Int) :
    ((tDec - tEnc).natAbs > 60000 → decryptWithDynamicIV C blob keyStr tDec = none) ∧
      ((tDec - tEnc).natAbs ≤ 60000 →
        decryptWithDynamicIV C blob keyStr tDec = some (.str value)) := by
  rw [decrypt_encrypt C value keyStr kb hk hC hv iv hiv16 hivb tEnc blob henc tDec]
  constructor
  · intro hold
    rw [if_pos ⟨by omega, hold⟩]
  · intro hfresh
    rw [if_neg (by omega)]

/-- Witness for C4: the blob encrypted at time 1000 is rejected at time
71000. -/
theorem kc_c4_expiry_witness :
    decryptWithDynamicIV identityCipher kcBlob1 kcKey16 71000 = none :=
  (kc_c4_expiry identityCipher kcVal kcKey16 kcKey16 rfl (identityCipher_good kcKey16)
    (by decide) kcIv1 (by decide) (by decide) 1000 (by decide) kcBlob1 kcBlob1_spec
    71000).1 (by decide)

/-- Claim C5: the freshness check is symmetric in time — a blob whose
embedded timestamp lies up to 60,000 ms in the decoder's future is accepted
exactly like one the same distance in the past, and the result at skew `+d`
always equals the result at skew `-d`. -/
theorem kc_c5_skew_symmetric (C : BlockCipher) (value keyStr kb : JsStr)
    (hk : utf8Encode keyStr = .ok kb) (hC : CipherGood C kb)
    (hv : ∀ x ∈ value, x < 0x10000)
    (iv : List Nat) (hiv16 : iv.length = 16) (hivb : ∀ x ∈ iv, x < 256)
    (tEnc : Int) (htpos : 0 < tEnc) (blob : JsStr)
    (henc : encryptWithDynamicIV C value keyStr tEnc iv = .ok blob) (d : Nat) :
    (d ≤ 60000 →
      decryptWithDynamicIV C blob keyStr (tEnc + (d : Int)) = some (.str value) ∧
      decryptWithDynamicIV C blob keyStr (tEnc - (d : Int)) = some (.str value)) ∧
    decryptWithDynamicIV C blob keyStr (tEnc + (d : Int)) =
      decryptWithDynamicIV C blob keyStr (tEnc - (d : Int)) := by
  have h1 := decrypt_encrypt C value keyStr kb hk hC hv iv hiv16 hivb tEnc blob henc
    (tEnc + (d : Int))
  have h2 := decrypt_encrypt C value keyStr kb hk hC hv iv hiv16 hivb tEnc blob henc
    (tEnc - (d : Int))
  have e1 : (tEnc + (d : Int) - tEnc).natAbs = d := by omega
  have e2 : (tEnc - (d : Int) - tEnc).natAbs = d := by omega
  rw [e1] at h1
  rw [e2] at h2
  constructor
  · intro hd
    constructor
    · rw [h1, if_neg (by omega)]
    · rw [h2, if_neg (by omega)]
  · rw [h1, h2]

/-- Witness for C5 at the window edge, sixty seconds of skew in both
directions. -/
theorem kc_c5_skew_symmetric_witness :
    decryptWithDynamicIV identityCipher kcBlob1 kcKey16 (1000 + ((60000 : Nat) : Int)) =
        some (.str kcVal) ∧
      decryptWithDynamicIV identityCipher kcBlob1 kcKey16 (1000 - ((60000 : Nat) : Int)) =
        some (.str kcVal) :=
  (kc_c5_skew_symmetric identityCipher kcVal kcKey16 kcKey16 rfl
    (identityCipher_good kcKey16) (by decide) kcIv1 (by decide) (by decide) 1000
    (by decide) kcBlob1 kcBlob1_spec 60000).1 (by decide)

/-- Claim C6: every blob produced by encryption is the Base64 encoding of the
16-byte IV followed by the CBC ciphertext of the UTF-8 JSON payload, and that
ciphertext is a positive multiple of 16 bytes. -/
theorem kc_c6_blob_structure (C : BlockCipher) (value keyStr kb : JsStr)
    (hk : utf8Encode keyStr = .ok kb) (hC : CipherGood C kb)
    (hv : ∀ x ∈ value, x < 0x10000)
    (iv : List Nat) (hiv16 : iv.length = 16) (hivb : ∀ x ∈ iv, x < 256)
    (tEnc : Int) :
    ∃ pb ct, utf8Encode (payloadStr tEnc value) = .ok pb ∧
      ct = cbcEncrypt C kb iv (pkcs7Pad pb) ∧
      encryptWithDynamicIV C value keyStr tEnc iv = .ok (b64Encode (iv ++ ct)) ∧
      ct.length % 16 = 0 ∧ 0 < ct.length := by
  obtain ⟨pb, ct, h1, h2, h3, h4, h5, _⟩ :=
    encrypt_shape C value keyStr kb hk hC hv iv hiv16 hivb tEnc
  exact ⟨pb, ct, h1, h2, h3, h4, by omega⟩

/-- Witness for C6 at the concrete inputs. -/
theorem kc_c6_blob_structure_witness :
    ∃ pb ct, utf8Encode (payloadStr 1000 kcVal) = .ok pb ∧
      ct = cbcEncrypt identityCipher kcKey16 kcIv1 (pkcs7Pad pb) ∧
      encryptWithDynamicIV identityCipher kcVal kcKey16 1000 kcIv1 =
        .ok (b64Encode (kcIv1 ++ ct)) ∧
      ct.length % 16 = 0 ∧ 0 < ct.length :=
  kc_c6_blob_structure identityCipher kcVal kcKey16 kcKey16 rfl
    (identityCipher_good kcKey16) (by decide) kcIv1 (by decide) (by decide) 1000

/-- Claim C7: two encryptions of the identical value and key that draw
different IVs produce different blobs, and both blobs decrypt to the value
within the freshness window. -/
theorem kc_c7_iv_uniqueness (C : BlockCipher) (value keyStr kb : JsStr)
    (hk : utf8Encode keyStr = .ok kb) (hC : CipherGood C kb)
    (hv : ∀ x ∈ value, x < 0x10000)
    (iv1 iv2 : List Nat) (hiv1a : iv1.length = 16) (hiv1b : ∀ x ∈ iv1, x < 256)
    (hiv2a : iv2.length = 16) (hiv2b : ∀ x ∈ iv2, x < 256) (hne : iv1 ≠ iv2)
    (t1 t2 : Int) (blob1 blob2 : JsStr)
    (henc1 : encryptWithDynamicIV C value keyStr t1 iv1 = .ok blob1)
    (henc2 : encryptWithDynamicIV C value keyStr t2 iv2 = .ok blob2)
    (tDec : Int) (hf1 : (tDec - t1).natAbs ≤ 60000) (hf2 : (tDec - t2).natAbs ≤ 60000) :
    blob1 ≠ blob2 ∧
      decryptWithDynamicIV C blob1 keyStr tDec = some (.str value) ∧
      decryptWithDynamicIV C blob2 keyStr tDec = some (.str value) := by
  obtain ⟨pb1, ct1, _, _, he1, _, _, hv1⟩ :=
    encrypt_shape C value keyStr kb hk hC hv iv1 hiv1a hiv1b t1
  obtain ⟨pb2, ct2, _, _, he2, _, _, hv2⟩ :=
    encrypt_shape C value keyStr kb hk hC hv iv2 hiv2a hiv2b t2
  have hb1 : blob1 = b64Encode (iv1 ++ ct1) := by
    rw [henc1] at he1
    exact Except.ok.inj he1
  have hb2 : blob2 = b64Encode (iv2 ++ ct2) := by
    rw [henc2] at he2
    exact Except.ok.inj he2
  refine ⟨?_, ?_, ?_⟩
  · intro hcon
    rw [hb1, hb2] at hcon
    have hlists := b64Encode_inj (iv1 ++ ct1) (iv2 ++ ct2)
      (by
        intro x hx
        rcases List.mem_append.mp hx with hx | hx
        · exact hiv1b x hx
        · exact hv1 x hx)
      (by
        intro x hx
        rcases List.mem_append.mp hx with hx | hx
        · exact hiv2b x hx
        · exact hv2 x hx)
      hcon
    have htake := congrArg (List.take 16) hlists
    rw [List.take_left' hiv1a, List.take_left' hiv2a] at htake
    exact hne htake
  · rw [decrypt_encrypt C value keyStr kb hk hC hv iv1 hiv1a hiv1b t1 blob1 henc1 tDec]
    rw [if_neg (by omega)]
  · rw [decrypt_encrypt C value keyStr kb hk hC hv iv2 hiv2a hiv2b t2 blob2 henc2 tDec]
    rw [if_neg (by omega)]

/-- Witness for C7 with the two sample IVs. -/
theorem kc_c7_iv_uniqueness_witness :
    kcBlob1 ≠ kcBlob2 ∧
      decryptWithDynamicIV identityCipher kcBlob1 kcKey16 2000 = some (.str kcVal) ∧
      decryptWithDynamicIV identityCipher kcBlob2 kcKey16 2000 = some (.str kcVal) :=
  kc_c7_iv_uniqueness identityCipher kcVal kcKey16 kcKey16 rfl
    (identityCipher_good kcKey16) (by decide) kcIv1 kcIv2 (by decide) (by decide)
    (by decide) (by decide) (by decide) 1000 2000 kcBlob1 kcBlob2 kcBlob1_spec
    kcBlob2_spec 2000 (by decide) (by decide)

/-- Claim C8 amended: the code has no minimum-length check.  A blob whose
Base64 decoding yields at most 16 bytes (IV or less, no ciphertext bytes)
always yields null; but between 17 and 31 decoded bytes the partial block is
zero-extended and fed to the cipher, and the result is whatever that garbage
decrypts to — the counterexample below shows such a blob returning a value. -/
theorem kc_c8_short_blob (C : BlockCipher) (blob keyStr : JsStr) (now : Int)
    (hlen : (b64Decode blob).length ≤ 16) :
    decryptWithDynamicIV C blob keyStr now = none := by
  unfold decryptWithDynamicIV decryptTry decryptParsed
  cases hke : utf8Encode keyStr with
  | error e => simp only [hke]
  | ok kb =>
    simp only [hke, if_pos hlen]
    rfl

/-- Witness for the amended C8: the empty blob decodes to zero bytes and
decrypts to null. -/
theorem kc_c8_short_blob_witness :
    decryptWithDynamicIV identityCipher [] kcKey16 0 = none :=
  kc_c8_short_blob identityCipher [] kcKey16 0 (by decide)

/-- The 27-byte counterexample input for C8: a crafted IV whose first bytes
spell a JSON object, followed by 11 zero ciphertext bytes. -/
def kcC8Raw : List Nat :=
  [123, 34, 118, 34, 58, 34, 65, 34, 125, 2, 2, 0, 0, 0, 0, 0] ++ List.replicate 11 0

/-- Counterexample to C8 as stated: a blob whose Base64 decoding has 27
bytes — fewer than 32 — for which decryption returns the value `"A"`, not
null.  The 11 ciphertext bytes are zero-extended to one block, decrypted and
XORed with the crafted IV, and the resulting bytes survive the unvalidated
unpad and parse as a JSON object without a timestamp. -/
theorem kc_c8_counterexample :
    (b64Decode (b64Encode kcC8Raw)).length = 27 ∧
      decryptWithDynamicIV identityCipher (b64Encode kcC8Raw) kcKey16 0 =
        some (.str [65]) :=
  ⟨rfl, rfl⟩

/-- Counterexample to C9 as stated: encrypting a value that is a single
unpaired surrogate does not fail with `EncodingFailure`; well-formed
`JSON.stringify` escapes the surrogate and a blob is produced. -/
theorem kc_c9_counterexample :
    ∃ b, encryptWithDynamicIV identityCipher [0xD800] kcKey16 5 kcIv1 = .ok b ∧
      encryptWithDynamicIV identityCipher [0xD800] kcKey16 5 kcIv1 ≠
        .error .encodingFailure := by
  have he : encryptWithDynamicIV identityCipher [0xD800] kcKey16 5 kcIv1 =
      .ok ((encryptWithDynamicIV identityCipher [0xD800] kcKey16 5 kcIv1).toOption.getD []) :=
    rfl
  refine ⟨_, he, ?_⟩
  rw [he]
  exact fun hcon => nomatch hcon

/-- Claim C9 amended: serialization of the value never fails (well-formed
`JSON.stringify` escapes unpaired surrogates), so encryption with a parseable
key always produces a blob; the one remaining failure source, the UTF-8 parse
of the key, is rethrown raw by the catch block — no `EncodingFailure` wrapper
exists anywhere. -/
theorem kc_c9_amended (C : BlockCipher) (value keyStr kb : JsStr)
    (hk : utf8Encode keyStr = .ok kb) (hv : ∀ x ∈ value, x < 0x10000)
    (t : Int) (iv : List Nat) (badKey : JsStr) (e : JsError)
    (hbad : utf8Encode badKey = .error e) :
    (∃ b, encryptWithDynamicIV C value keyStr t iv = .ok b) ∧
      encryptWithDynamicIV C value badKey t iv = .error e := by
  constructor
  · obtain ⟨pb, hpb⟩ := payloadStr_utf8 t value hv
    refine ⟨b64Encode (iv ++ cbcEncrypt C kb iv (pkcs7Pad pb)), ?_⟩
    unfold encryptWithDynamicIV
    simp only [hk, hpb]
  · unfold encryptWithDynamicIV
    simp only [hbad]

/-- Witness for the amended C9: the lone surrogate value encrypts fine under
the good key, and a lone-surrogate key makes encryption rethrow the raw
URIError. -/
theorem kc_c9_amended_witness :
    (∃ b, encryptWithDynamicIV identityCipher [0xD800] kcKey16 9 kcIv1 = .ok b) ∧
      encryptWithDynamicIV identityCipher [0xD800] [0xDC00] 9 kcIv1 =
        .error .uriError :=
  kc_c9_amended identityCipher [0xD800] kcKey16 kcKey16 rfl (by decide) 9 kcIv1
    [0xDC00] .uriError rfl

/-- Claim C10: when the decrypted and parsed object has an absent or falsy
`t` member, the freshness check is skipped entirely and the `v` member is
returned at every decode time — such a blob never expires. -/
theorem kc_c10_falsy_timestamp (C : BlockCipher) (blob keyStr : JsStr) (data : Json)
    (hp : decryptParsed C blob keyStr = .ok (some data))
    (ht : jsTruthy (getField data [116]) = false) (now : Int) :
    decryptWithDynamicIV C blob keyStr now = denull (getField data [118]) := by
  unfold decryptWithDynamicIV decryptTry
  rw [hp]
  simp [freshGate, ht]

/-- The crafted blob for the C10 witness: zero IV, one padded block spelling
a JSON object with a `v` member and no `t` member. -/
def kcC10Raw : List Nat :=
  List.replicate 16 0 ++ ([123, 34, 118, 34, 58, 34, 120, 34, 125] ++ List.replicate 7 7)

/-- Witness for C10: the `t`-less blob decrypts to its value at an arbitrary
late decode time. -/
theorem kc_c10_falsy_timestamp_witness :
    decryptWithDynamicIV identityCipher (b64Encode kcC10Raw) kcKey16 999999999 =
      some (.str [120]) :=
  (kc_c10_falsy_timestamp identityCipher (b64Encode kcC10Raw) kcKey16
    (.obj [([118], .str [120])]) rfl rfl 999999999).trans rfl
